import Mathlib

/-!
Verification development for the logical-plan evaluation engine of
cudf-polars (`cudf_polars/dsl/ir.py` and `cudf_polars/dsl/utils/aggregations.py`).

The Python source is shallowly embedded: columns are lists of nullable
values, dataframes are ordered lists of named columns, and each relevant
function (`broadcast`, `Select.do_evaluate`, `Scan.__init__`,
`Cache.evaluate`, `decompose_single_agg`, `Scan.get_hashable`,
`DataFrameScan.get_hashable`, `MergeSorted.do_evaluate`,
`GroupBy.do_evaluate` order restoration, `Join._reorder_maps`) is
translated into an executable Lean definition.  External device
primitives (libcudf kernels) are modelled at their documented interface.
-/

namespace Pygdf

/-- Sortedness flag on a column (`plc.types.Sorted`). -/
inductive SortedFlag where
  | NO
  | YES
deriving DecidableEq, Repr

/-- Sort direction (`plc.types.Order`). -/
inductive SortOrder where
  | ASCENDING
  | DESCENDING
deriving DecidableEq, Repr

/-- Null placement (`plc.types.NullOrder`). -/
inductive NullOrder where
  | BEFORE
  | AFTER
deriving DecidableEq, Repr

/-- A cell value: `none` models a null. -/
abbrev Val := Option Int

/-- A row of a table, as a list of nullable cells. -/
abbrev Row := List Val

/-- Evaluated column: named, device-resident values plus sortedness metadata
(`cudf_polars.containers.Column`). -/
structure Column where
  name : String
  values : List Val
  is_sorted : SortedFlag := .NO
  order : SortOrder := .ASCENDING
  null_order : NullOrder := .BEFORE
deriving DecidableEq, Repr

/-- `Column.size`: number of rows in the column. -/
def Column.size (c : Column) : Nat := c.values.length

/-- `Column.obj_scalar`: the single value of a length-1 column
(only meaningful when `c.size = 1`). -/
def Column.scalarValue (c : Column) : Val := c.values.headI

/-- Evaluated table: ordered sequence of named columns
(`cudf_polars.containers.DataFrame`). -/
structure DataFrame where
  columns : List Column
deriving DecidableEq, Repr

/-- `DataFrame.column_names`. -/
def DataFrame.column_names (df : DataFrame) : List String :=
  df.columns.map Column.name

/-- `DataFrame.column_map`: name-keyed lookup of a column. -/
def DataFrame.column_map (df : DataFrame) (name : String) : Option Column :=
  df.columns.find? (fun c => c.name == name)

/-- `DataFrame.num_rows`: row count (0 for a zero-column table). -/
def DataFrame.num_rows (df : DataFrame) : Nat :=
  match df.columns with
  | [] => 0
  | c :: _ => c.size

/-! ### `broadcast` (ir.py lines 75-136)

`plc.Column.from_scalar(scalar, nrows)` is modelled by `List.replicate`;
the replacement column is tagged `is_sorted=YES, order=ASCENDING,
null_order=BEFORE` exactly as in the source. -/

/-- The per-column body of `broadcast`'s final list comprehension:
`column if column.size != 1 else Column(plc.Column.from_scalar(...), ...)`. -/
def broadcastColumn (nrows : Nat) (c : Column) : Column :=
  if c.size ≠ 1 then c
  else
    { name := c.name
      values := List.replicate nrows c.scalarValue
      is_sorted := .YES
      order := .ASCENDING
      null_order := .BEFORE }

/-- `broadcast(*columns, target_length=...)`: reconcile a set of columns of
mixed lengths to a common length, or fail with a `RuntimeError`. -/
def broadcast (columns : List Column) (target_length : Option Nat) :
    Except String (List Column) :=
  if columns.isEmpty then .ok []
  else
    let lengths := (columns.map Column.size).dedup
    if lengths.all (· = 1) then
      match target_length with
      | none => .ok columns
      | some t => .ok (columns.map (broadcastColumn t))
    else
      match ((columns.map Column.size).filter (· ≠ 1)).dedup with
      | [nrows] =>
          if target_length.all (· = nrows) then
            .ok (columns.map (broadcastColumn nrows))
          else .error "Cannot broadcast columns of length nrows to target_length"
      | _ => .error "Mismatching column lengths"

/-! ### `Select.do_evaluate` (ir.py lines 883-895)

The expression evaluator lives in `cudf_polars/dsl/expr.py`, outside the
embedded sources; only the named-column-reference case is needed here. -/

/-- Modelled from the spec: the external Expression Evaluator applied to a
named expression that is a bare column reference — "given a table and a
named expression, produces one named column"; a column reference yields
the table's column of that name, carrying the expression's output name.
Missing columns are an evaluation failure (`none`). -/
def evaluateColRef (df : DataFrame) (outName colName : String) : Option Column :=
  (df.column_map colName).map (fun c => { c with name := outName })

/-- `Select.do_evaluate` restricted to named column-reference expressions:
evaluate every expression, then broadcast if requested.  Each expression is
an (output name, referenced column name) pair. -/
def selectDoEvaluate (exprs : List (String × String)) (should_broadcast : Bool)
    (df : DataFrame) : Except String DataFrame :=
  match exprs.mapM (fun e => evaluateColRef df e.1 e.2) with
  | none => .error "column not found"
  | some cols =>
      if should_broadcast then
        (broadcast cols none).map DataFrame.mk
      else .ok (DataFrame.mk cols)

/-! ### `Scan.__init__` validation (ir.py lines 326-429)

The constructor's eager configuration checks, in source order.  Options
are modelled by structures holding exactly the fields the checks read. -/

/-- The CSV `null_values` parse option: a tagged dictionary whose key is one
of `AllColumnsSingle`, `AllColumns`, `Named`. -/
inductive NullValuesSpec where
  | AllColumnsSingle (v : String)
  | AllColumns (vs : List String)
  | Named (vs : List (String × String))
deriving DecidableEq, Repr

/-- The CSV `comment_prefix` parse option: `Single` (one character code) or
`Multi` (a string). -/
inductive CommentPrefixSpec where
  | Single (c : Nat)
  | Multi (s : String)
deriving DecidableEq, Repr

/-- The fields of `reader_options` read by `Scan.__init__`. -/
structure ReaderOptions where
  skip_rows_after_header : Int
  null_values : Option NullValuesSpec
  comment_prefix : Option CommentPrefixSpec
  has_header : Bool
  ignore_errors : Bool
deriving DecidableEq, Repr

/-- The cloud-credential fields of `cloud_options` read by `Scan.__init__`. -/
structure CloudOptions where
  aws : Option String
  azure : Option String
  gcp : Option String
deriving DecidableEq, Repr

/-- `any(self.cloud_options.get(k) is not None for k in ("aws", "azure", "gcp"))`. -/
def cloudCredentialsRequested (co : Option CloudOptions) : Bool :=
  match co with
  | none => false
  | some c => c.aws.isSome || c.azure.isSome || c.gcp.isSome

/-- `null_values is not None and "Named" in null_values`. -/
def hasNamedNullValues (ro : ReaderOptions) : Bool :=
  match ro.null_values with
  | some (.Named _) => true
  | _ => false

/-- `comment is not None and "Multi" in comment`. -/
def hasMultiCommentPre (ro : ReaderOptions) : Bool :=
  match ro.comment_prefix with
  | some (.Multi _) => true
  | _ => false

/-- `Scan.__init__`: the validation performed at node construction time, in
source order.  Returns `.ok ()` exactly when the configuration passes every
check; each failing check raises `NotImplementedError` (an unsupported-plan
error).  `polars_version_lt_128` models the `POLARS_VERSION_LT_128` flag. -/
def scanInit (typ : String) (reader_options : ReaderOptions)
    (cloud_options : Option CloudOptions) (paths : List String)
    (with_columns : Option (List String)) (skip_rows : Int) (n_rows : Int)
    (row_index : Option (String × Int)) (include_file_paths : Option String)
    (polars_version_lt_128 : Bool) : Except String Unit :=
  if typ ∉ ["csv", "parquet", "ndjson"] then
    .error "Unhandled scan type"
  else if typ = "ndjson" ∧ (n_rows ≠ -1 ∨ skip_rows ≠ 0) then
    .error "row limit in scan for json reader"
  else if skip_rows < 0 then
    .error "slice pushdown for negative slices"
  else if polars_version_lt_128 ∧ typ = "csv" ∧ skip_rows ≠ 0 then
    .error "skipping rows in CSV reader"
  else if cloudCredentialsRequested cloud_options then
    .error "Read from cloud storage"
  else if paths.any (fun p => p.startsWith "https:/") then
    .error "Read from https"
  else if typ = "csv" ∧ reader_options.skip_rows_after_header ≠ 0 then
    .error "Skipping rows after header in CSV reader"
  else if typ = "csv" ∧ hasNamedNullValues reader_options then
    .error "Per column null value specification not supported for CSV reader"
  else if typ = "csv" ∧ hasMultiCommentPre reader_options then
    .error "Multi-character comment prefix not supported for CSV reader"
  else if typ = "csv" ∧ ¬reader_options.has_header then
    .error "Reading CSV without header"
  else if typ = "ndjson" ∧ reader_options.ignore_errors then
    .error "ignore_errors is not supported in the JSON reader"
  else if typ = "ndjson" ∧ include_file_paths.isSome then
    .error "Including file paths in a json scan."
  else if typ = "parquet" ∧ row_index.isSome ∧ with_columns = some [] then
    .error "Reading only parquet metadata to produce row index."
  else .ok ()

/-! ### Hashable representations (ir.py lines 431-453 and 806-840)

`Scan.get_hashable` serialises the option dictionaries with `json.dumps`;
Python's `json.dumps` (without `sort_keys`) writes object members in the
dictionary's insertion order, with separators `", "` and `": "`.
`DataFrameScan.__init__` draws `_id_for_hash = random.randint(0, 2**64-1)`
once per instance; the draw is modelled as a constructor argument. -/

/-- A JSON value; objects keep their (Python dict insertion) member order. -/
inductive JVal where
  | str (s : String)
  | num (n : Int)
  | jbool (b : Bool)
  | null
  | arr (xs : List JVal)
  | obj (fields : List (String × JVal))

mutual

/-- `json.dumps` with default separators (string escaping elided). -/
def jdump : JVal → String
  | .str s => "\"" ++ s ++ "\""
  | .num n => toString n
  | .jbool b => if b then "true" else "false"
  | .null => "null"
  | .arr xs => "[" ++ String.intercalate ", " (jdumpList xs) ++ "]"
  | .obj fs => "\x7b" ++ String.intercalate ", " (jdumpFields fs) ++ "\x7d"

/-- Serialise array elements in order. -/
def jdumpList : List JVal → List String
  | [] => []
  | v :: rest => jdump v :: jdumpList rest

/-- Serialise object members in insertion order. -/
def jdumpFields : List (String × JVal) → List String
  | [] => []
  | (k, v) :: rest => ("\"" ++ k ++ "\": " ++ jdump v) :: jdumpFields rest

end

/-- Logical data types (the subset relevant to the embedded code paths). -/
inductive DType where
  | int8
  | int16
  | int32
  | int64
  | uint8
  | uint16
  | uint32
  | uint64
  | float32
  | float64
  | boolean
  | string
deriving DecidableEq, Repr

/-- `plc.traits.is_integral`. -/
def DType.isIntegral : DType → Bool
  | .int8 | .int16 | .int32 | .int64 | .uint8 | .uint16 | .uint32 | .uint64 => true
  | _ => false

/-- `plc.traits.is_floating_point`. -/
def DType.isFloatingPoint : DType → Bool
  | .float32 | .float64 => true
  | _ => false

/-- The hash-relevant constructor parameters of a `Scan` node.  The two
option dictionaries keep their insertion order, mirroring Python dicts. -/
structure ScanNodeParams where
  schema : List (String × DType)
  typ : String
  reader_options : List (String × JVal)
  cloud_options : List (String × JVal)
  config_options : String
  paths : List String
  with_columns : Option (List String)
  skip_rows : Int
  n_rows : Int
  row_index : Option (String × Int)
  include_file_paths : Option String
  predicate : Option String

/-- The tuple returned by `Scan.get_hashable`. -/
structure ScanHashable where
  schema_hash : List (String × DType)
  typ : String
  reader_options_json : String
  cloud_options_json : String
  config_options : String
  paths : List String
  with_columns : Option (List String)
  skip_rows : Int
  n_rows : Int
  row_index : Option (String × Int)
  include_file_paths : Option String
  predicate : Option String
deriving DecidableEq, Repr

/-- `Scan.get_hashable`: the option dictionaries are serialised as json
strings (insertion order, no key sorting). -/
def scanGetHashable (s : ScanNodeParams) : ScanHashable :=
  { schema_hash := s.schema
    typ := s.typ
    reader_options_json := jdump (.obj s.reader_options)
    cloud_options_json := jdump (.obj s.cloud_options)
    config_options := s.config_options
    paths := s.paths
    with_columns := s.with_columns
    skip_rows := s.skip_rows
    n_rows := s.n_rows
    row_index := s.row_index
    include_file_paths := s.include_file_paths
    predicate := s.predicate }

/-- The state of a constructed `DataFrameScan` node: its wrapped in-memory
table, the per-instance random draw `_id_for_hash`, and the remaining
parameters. -/
structure DataFrameScanNode where
  schema : List (String × DType)
  df : DataFrame
  id_for_hash : Nat
  projection : Option (List String)
  config_options : String
deriving DecidableEq, Repr

/-- The tuple returned by `DataFrameScan.get_hashable`: the wrapped table is
not part of the representation, only the opaque `_id_for_hash`. -/
structure DataFrameScanHashable where
  schema_hash : List (String × DType)
  id_for_hash : Nat
  projection : Option (List String)
  config_options : String
deriving DecidableEq, Repr

/-- `DataFrameScan.get_hashable`. -/
def dataFrameScanGetHashable (n : DataFrameScanNode) : DataFrameScanHashable :=
  { schema_hash := n.schema
    id_for_hash := n.id_for_hash
    projection := n.projection
    config_options := n.config_options }

/-! ### Aggregation decomposition (`utils/aggregations.py` lines 30-168)

The expression node classes live in `cudf_polars/dsl/expr.py`, outside the
embedded sources.  Modelled from the spec: an expression is a column
reference, a length count, a literal, a single aggregation over children,
a cast, a unary function, a pointwise binary operation, or a ternary
conditional; `reconstruct` rebuilds a node with new children, keeping its
other attributes, and `is_pointwise` holds for cast / unary / binop. -/

/-- Expression AST for the aggregation decomposer. -/
inductive AExpr where
  | col (dtype : DType) (name : String)
  | len (dtype : DType)
  | lit (dtype : DType) (value : Int)
  | agg (dtype : DType) (aggName : String) (options : Bool) (children : List AExpr)
  | cast (dtype : DType) (child : AExpr)
  | unary (dtype : DType) (fname : String) (children : List AExpr)
  | binop (dtype : DType) (op : String) (children : List AExpr)
  | ternary (dtype : DType) (children : List AExpr)

/-- The declared output dtype of an expression. -/
def AExpr.dtype : AExpr → DType
  | .col d _ => d
  | .len d => d
  | .lit d _ => d
  | .agg d _ _ _ => d
  | .cast d _ => d
  | .unary d _ _ => d
  | .binop d _ _ => d
  | .ternary d _ => d

/-- `Expr.is_pointwise` for the constructors that reach the pointwise
branch of `decompose_single_agg`. -/
def AExpr.isPointwise : AExpr → Bool
  | .cast _ _ => true
  | .unary _ _ _ => true
  | .binop _ _ _ => true
  | _ => false

/-- A named expression: output name paired with an expression tree. -/
structure ANamed where
  name : String
  value : AExpr

/-- The unique-name generator, modelled as an indexed name supply. -/
def genName (i : Nat) : String := "_tmp" ++ toString i

mutual

/-- Does `fill_null` occur anywhere in an expression? -/
def AExpr.hasFillNull : AExpr → Bool
  | .col _ _ => false
  | .len _ => false
  | .lit _ _ => false
  | .agg _ _ _ cs => anyFillNull cs
  | .cast _ c => c.hasFillNull
  | .unary _ f cs => f = "fill_null" || anyFillNull cs
  | .binop _ _ cs => anyFillNull cs
  | .ternary _ cs => anyFillNull cs

/-- Does `fill_null` occur in any expression of the list? -/
def anyFillNull : List AExpr → Bool
  | [] => false
  | c :: rest => c.hasFillNull || anyFillNull rest

end

mutual

/-- Size measure for the decomposition recursion. -/
def AExpr.esize : AExpr → Nat
  | .col _ _ => 1
  | .len _ => 1
  | .lit _ _ => 1
  | .agg _ _ _ cs => 2 + esizeList cs
  | .cast _ c => 2 + c.esize
  | .unary _ _ cs => 2 + esizeList cs
  | .binop _ _ cs => 2 + esizeList cs
  | .ternary _ cs => 2 + esizeList cs

/-- Size measure for lists of expressions. -/
def esizeList : List AExpr → Nat
  | [] => 0
  | c :: rest => 1 + c.esize + esizeList rest

end

/-- The `col` used in the `sum` branch: cast the request's output up from a
narrow integral type (`expr.Cast(agg.dtype, expr.Col(INT64, name))`), else a
plain column reference. -/
def sumPostCol (dt : DType) (name : String) : AExpr :=
  if dt.isIntegral ∧ dt ≠ .int64 then .cast dt (.col .int64 name)
  else .col dt name

/-- The post expression of the single child decomposition (cast case). -/
def headValue (posts : List ANamed) : AExpr :=
  match posts with
  | [] => .lit .int64 0
  | p :: _ => p.value

mutual

/-- `decompose_single_agg(named_expr, name_generator, is_top=...)`.

Returns `(aggregations, post_aggregate, is_nested)` plus the advanced name
counter; unsupported shapes raise `NotImplementedError` (`.error`).  The
named expression is passed as separate `name` / `e` so that recursion is
structural in `e`. -/
def decomposeSingleAgg (name : String) (e : AExpr) (ctr : Nat) (isTop : Bool) :
    Except String (List ANamed × ANamed × Bool × Nat) :=
  match e with
  | .col _ _ => .ok ([⟨name, e⟩], ⟨name, e⟩, false, ctr)
  | .len dt => .ok ([⟨name, e⟩], ⟨name, .col dt name⟩, true, ctr)
  | .lit _ _ => .ok ([], ⟨name, e⟩, false, ctr)
  | .agg dt aname opts children =>
      match children with
      | [] => .error "No support for this expression in groupby"
      | child :: restChildren =>
          -- `quantile` keeps only its first child; every other aggregation
          -- asserts a single child.
          if aname ≠ "quantile" ∧ restChildren.length ≠ 0 then
            .error "No support for this expression in groupby"
          else
            let needsMasking :=
              (aname = "min" ∨ aname = "max") ∧ child.dtype.isFloatingPoint
            if needsMasking ∧ opts then
              .error "Nan propagation in groupby for min or max"
            else
              match decomposeSingleAgg (genName ctr) child (ctr + 1) false with
              | .error msg => .error msg
              | .ok (_, _, hasAgg, ctr') =>
                  if hasAgg then .error "Nested aggs in groupby not supported"
                  else if needsMasking then
                    let child' := AExpr.unary child.dtype "mask_nans" [child]
                    .ok ([⟨name, .agg dt aname opts (child' :: restChildren)⟩],
                         ⟨name, .col dt name⟩, true, ctr')
                  else if aname = "sum" then
                    let post :=
                      if isTop then
                        AExpr.unary dt "fill_null" [sumPostCol dt name, .lit dt 0]
                      else sumPostCol dt name
                    .ok ([⟨name, e⟩], ⟨name, post⟩, true, ctr')
                  else .ok ([⟨name, e⟩], ⟨name, .col dt name⟩, true, ctr')
  | .ternary _ _ => .error "Ternary inside groupby"
  | .cast dt child =>
      match decomposeChildren [child] ctr with
      | .error msg => .error msg
      | .ok (aggs, posts, hasAggs, ctr') =>
          if hasAggs.any id then
            .ok (aggs, ⟨name, .cast dt (headValue posts)⟩, true, ctr')
          else .ok ([⟨name, e⟩], ⟨name, .col dt name⟩, false, ctr')
  | .unary dt f children =>
      match decomposeChildren children ctr with
      | .error msg => .error msg
      | .ok (aggs, posts, hasAggs, ctr') =>
          if hasAggs.any id then
            .ok (aggs, ⟨name, .unary dt f (posts.map ANamed.value)⟩, true, ctr')
          else .ok ([⟨name, e⟩], ⟨name, .col dt name⟩, false, ctr')
  | .binop dt op children =>
      match decomposeChildren children ctr with
      | .error msg => .error msg
      | .ok (aggs, posts, hasAggs, ctr') =>
          if hasAggs.any id then
            .ok (aggs, ⟨name, .binop dt op (posts.map ANamed.value)⟩, true, ctr')
          else .ok ([⟨name, e⟩], ⟨name, .col dt name⟩, false, ctr')
termination_by e.esize
decreasing_by
  all_goals simp [AExpr.esize, esizeList]
  all_goals omega

/-- `_decompose_aggs` over the freshly named children of a pointwise
expression (each child receives the next generated name). -/
def decomposeChildren (es : List AExpr) (ctr : Nat) :
    Except String (List ANamed × List ANamed × List Bool × Nat) :=
  match es with
  | [] => .ok ([], [], [], ctr)
  | e :: rest =>
      match decomposeSingleAgg (genName ctr) e (ctr + 1) false with
      | .error msg => .error msg
      | .ok (aggs, post, hasAgg, ctr') =>
          match decomposeChildren rest ctr' with
          | .error msg => .error msg
          | .ok (aggsR, postsR, hasR, ctr'') =>
              .ok (aggs ++ aggsR, post :: postsR, hasAgg :: hasR, ctr'')
termination_by esizeList es
decreasing_by
  all_goals simp [AExpr.esize, esizeList]
  all_goals omega

end

/-! ### `Cache.evaluate` and the CSE cache (ir.py lines 192-231 and 728-787)

A plan is a tree of nodes; sharing of a cache node by several parents is
expressed by the same `cache` subterm appearing several times.  The
evaluation driver (`IR.evaluate`) recurses post-order; `Cache.evaluate`
overrides the recursion.  The per-evaluation CSE cache (a Python dict
`key -> (DataFrame, hits)`) is an association list read and written only
through lookup / insert / erase.  Evaluation is instrumented with two
logs: the keys of every cache-node visit, and the keys of every cache
miss (each miss is one evaluation of the wrapped child). -/

/-- A logical plan: leaves produce tables, inner nodes combine the
evaluated children with a pure function, and `cache` wraps one child with
a CSE key and refcount. -/
inductive Plan where
  | leaf (t : DataFrame)
  | node (f : List DataFrame → DataFrame) (children : List Plan)
  | cache (key : Nat) (refcount : Nat) (child : Plan)

/-- The CSE cache: `key ↦ (computed table, hits so far)`. -/
abbrev CSECache := List (Nat × DataFrame × Nat)

/-- `cache[key]` lookup. -/
def cacheLookup (s : CSECache) (k : Nat) : Option (DataFrame × Nat) :=
  (s.find? (fun e => e.1 == k)).map (·.2)

/-- `del cache[key]`. -/
def cacheErase (s : CSECache) (k : Nat) : CSECache :=
  s.filter (fun e => ¬ e.1 = k)

/-- `cache[key] = v` (replacing any previous binding). -/
def cacheInsert (s : CSECache) (k : Nat) (v : DataFrame × Nat) : CSECache :=
  (k, v) :: cacheErase s k

mutual

/-- `IR.evaluate` / `Cache.evaluate`: recursive evaluation with the CSE
cache threaded through, returning
`(result, final cache, visited cache keys, missed cache keys)`. -/
def evalPlan : Plan → CSECache → DataFrame × CSECache × List Nat × List Nat
  | .leaf t, s => (t, s, [], [])
  | .node f cs, s =>
      let (ts, s', v, m) := evalPlans cs s
      (f ts, s', v, m)
  | .cache k r child, s =>
      match cacheLookup s k with
      | none =>
          -- miss: evaluate the single child, store (result, hits=0), return
          let (res, s', v, m) := evalPlan child s
          (res, cacheInsert s' k (res, 0), k :: v, k :: m)
      | some (res, hits) =>
          -- hit: increment hits; remove the entry on the refcount-th hit
          if hits + 1 = r then (res, cacheErase s k, [k], [])
          else (res, cacheInsert s k (res, hits + 1), [k], [])

/-- Post-order evaluation of a node's children, left to right. -/
def evalPlans : List Plan → CSECache → List DataFrame × CSECache × List Nat × List Nat
  | [], s => ([], s, [], [])
  | p :: rest, s =>
      let (t, s', v, m) := evalPlan p s
      let (ts, s'', v', m') := evalPlans rest s'
      (t :: ts, s'', v ++ v', m ++ m')

end

mutual

/-- No cache node with key `K` occurs anywhere in the plan. -/
def keyFree (K : Nat) : Plan → Bool
  | .leaf _ => true
  | .node _ cs => keyFreeList K cs
  | .cache k _ child => ¬ k = K && keyFree K child

/-- `keyFree` over a list of plans. -/
def keyFreeList (K : Nat) : List Plan → Bool
  | [] => true
  | p :: rest => keyFree K p && keyFreeList K rest

end

mutual

/-- Well-formedness of a plan with respect to cache key `K`: every cache
node carrying key `K` has refcount `R`, and its wrapped child contains no
further key-`K` cache node (polars guarantees keys are unique per distinct
underlying subexpression, so a cache node never wraps itself). -/
def keyOk (K R : Nat) : Plan → Bool
  | .leaf _ => true
  | .node _ cs => keyOkList K R cs
  | .cache k r child =>
      (if k = K then r = R && keyFree K child else true) && keyOk K R child

/-- `keyOk` over a list of plans. -/
def keyOkList (K R : Nat) : List Plan → Bool
  | [] => true
  | p :: rest => keyOk K R p && keyOkList K R rest

end

/-- The hits-so-far entry for key `K`, abstracting the cache state. -/
def hitsAt (s : CSECache) (K : Nat) : Option Nat :=
  (cacheLookup s K).map (·.2)

/-- One key-`K` cache-node visit, as a transition on the abstract entry
state: a miss stores hits = 0; a hit increments, removing the entry when
the incremented count reaches the refcount. -/
def stepK (R : Nat) : Option Nat → Option Nat
  | none => some 0
  | some h => if h + 1 = R then none else some (h + 1)

/-- Whether a visit in state `σ` is a miss (a child evaluation). -/
def missBit (σ : Option Nat) : Nat :=
  match σ with
  | none => 1
  | some _ => 0

/-- Iterate `n` key-`K` visits from entry state `σ`, counting misses. -/
def iterK (R : Nat) (σ : Option Nat) : Nat → Option Nat × Nat
  | 0 => (σ, 0)
  | n + 1 =>
      let (σf, misses) := iterK R (stepK R σ) n
      (σf, missBit σ + misses)

/-! ### `MergeSorted.do_evaluate` (ir.py lines 1713-1745)

`plc.merge.merge(tables, key_cols, orders, null_orders)` is an external
device primitive: a k-way merge of equal-layout sorted tables by the key
columns, comparing rows lexicographically over `key_cols` with the given
per-key order and null placement.  It is modelled row-wise by a standard
two-way merge. -/

/-- Comparison of two nullable cells under a sort order and null placement. -/
def valCmp (o : SortOrder) (no : NullOrder) (a b : Val) : Ordering :=
  match a, b with
  | none, none => .eq
  | none, some _ => if no = .BEFORE then .lt else .gt
  | some _, none => if no = .BEFORE then .gt else .lt
  | some x, some y =>
      match o with
      | .ASCENDING => if x < y then .lt else if x = y then .eq else .gt
      | .DESCENDING => if y < x then .lt else if y = x then .eq else .gt

/-- Lexicographic comparison of two rows over a list of
(column index, order, null placement) keys. -/
def rowCmp (specs : List (Nat × SortOrder × NullOrder)) (r1 r2 : Row) : Ordering :=
  match specs with
  | [] => .eq
  | (i, o, no) :: rest =>
      match valCmp o no (r1.getD i none) (r2.getD i none) with
      | .lt => .lt
      | .gt => .gt
      | .eq => rowCmp rest r1 r2

/-- Non-strict row comparison used by the merge. -/
def rowLe (specs : List (Nat × SortOrder × NullOrder)) (r1 r2 : Row) : Bool :=
  rowCmp specs r1 r2 ≠ .gt

/-- Two-way merge of sorted row lists (model of `plc.merge.merge` on two
tables; rows of the first table come first on ties). -/
def mergeRows (le : Row → Row → Bool) : List Row → List Row → List Row
  | [], ys => ys
  | xs, [] => xs
  | x :: xs, y :: ys =>
      if le x y then x :: mergeRows le xs (y :: ys)
      else y :: mergeRows le (x :: xs) ys

/-- The rows of a dataframe (`DataFrame.table` viewed row-major). -/
def DataFrame.rows (df : DataFrame) : List Row :=
  (df.columns.map Column.values).transpose

/-- `DataFrame.discard_columns`: drop the columns whose names are in the
given set. -/
def DataFrame.discard_columns (df : DataFrame) (names : List String) : DataFrame :=
  ⟨df.columns.filter (fun c => c.name ∉ names)⟩

/-- `DataFrame.from_table(tbl, names)` for a row-major table: column `i`
holds cell `i` of every row, with no sortedness metadata. -/
def dfFromRows (names : List String) (rows : List Row) : DataFrame :=
  ⟨(names.enum).map (fun ni =>
      { name := ni.2, values := rows.map (fun r => r.getD ni.1 none) })⟩

/-- The sortedness metadata of the named column (defaulting like the
source, which indexes `select_columns({key})[0]`). -/
def keyColMeta (df : DataFrame) (key : String) : SortOrder × NullOrder :=
  match df.column_map key with
  | some c => (c.order, c.null_order)
  | none => (.ASCENDING, .BEFORE)

/-- `MergeSorted.do_evaluate(key, left, right)`:
drop the right-side columns whose names are not among the left's, merge
the two row sets on the shared key column (whose index and sort metadata
are taken per side), and name the result with the left child's column
names. -/
def mergeSortedDoEvaluate (key : String) (left right : DataFrame) : DataFrame :=
  let right' :=
    right.discard_columns
      (right.column_names.filter (fun n => n ∉ left.column_names))
  let (lo, lno) := keyColMeta left key
  let (ro, rno) := keyColMeta right' key
  let li := left.column_names.indexOf key
  let ri := right'.column_names.indexOf key
  let specs := [(li, lo, lno), (ri, ro, rno)]
  let merged := mergeRows (rowLe specs) right'.rows left.rows
  dfFromRows left.column_names merged

/-- Modelled from the spec: the claimed variant of `MergeSorted` in which
the right-side columns *duplicating* left-side names are the ones dropped
before merging ("with columns of the minor (right) side that duplicate
left-side names dropped before merging"); everything else as in the
source. -/
def mergeSortedClaimed (key : String) (left right : DataFrame) : DataFrame :=
  let right' :=
    right.discard_columns
      (right.column_names.filter (fun n => n ∈ left.column_names))
  let (lo, lno) := keyColMeta left key
  let (ro, rno) := keyColMeta right' key
  let li := left.column_names.indexOf key
  let ri := right'.column_names.indexOf key
  let specs := [(li, lo, lno), (ri, ro, rno)]
  let merged := mergeRows (rowLe specs) right'.rows left.rows
  dfFromRows left.column_names merged

/-! ### GroupBy order preservation (ir.py lines 1039-1080)

The `maintain_order and not sorted` branch of `GroupBy.do_evaluate`:
`stable_distinct(keys, KEEP_FIRST, NullEquality.EQUAL)` ("the order we
want"), the grouping primitive's own key order ("the order we have"),
`inner_join(want, have, NullEquality.EQUAL)` giving matching permutation
indices, `sort_by_key([right_order], [left_order], ASC, AFTER)`, and a
final gather of every output column.  Tables are handled row-major; the
grouped output is a list of (key row, aggregate row) pairs.  Null-equal
row comparison is definitional equality on `Row` (`none = none`). -/

/-- `plc.stream_compaction.stable_distinct(..., KEEP_FIRST, EQUAL)`:
the distinct rows in order of first appearance.  External primitive,
modelled at its documented interface. -/
def firstOcc : List Row → List Row
  | [] => []
  | r :: rs => r :: firstOcc (rs.filter (fun x => ¬ x = r))
termination_by l => l.length
decreasing_by
  simpa using Nat.lt_succ_of_le (rs.length_filter_le _)

/-- The contract of `plc.join.inner_join(want, have, EQUAL)`: the gather
maps enumerate exactly the equal-row index pairs, each exactly once, in
arbitrary order. -/
def innerJoinSpec (want haveRows : List Row) (pairs : List (Nat × Nat)) : Prop :=
  pairs.Nodup ∧
  ∀ i j, (i, j) ∈ pairs ↔
    (i < want.length ∧ j < haveRows.length ∧ want.getD i [] = haveRows.getD j [])

/-- `sort_by_key(plc.Table([right_order]), plc.Table([left_order]), ASC,
AFTER)` followed by reading off the sorted `right_order` column: sort the
(left, right) index pairs by the left index, take the right components. -/
def sortHaveByWant (pairs : List (Nat × Nat)) : List Nat :=
  (pairs.mergeSort (fun p q => p.1 ≤ q.1)).map (·.2)

/-- The final gather: reorder the grouped output rows (keys and
aggregates together) through the computed permutation. -/
def gatherGroups (grouped : List (Row × Row)) (perm : List Nat) :
    List (Row × Row) :=
  perm.map (fun j => grouped.getD j ([], []))

/-- The whole order-restoration step of `GroupBy.do_evaluate`: given the
grouped output and the inner-join gather maps, sort "have" indices by
"want" indices and gather every output column through the result. -/
def groupByMaintainOrder (grouped : List (Row × Row))
    (pairs : List (Nat × Nat)) : List (Row × Row) :=
  gatherGroups grouped (sortHaveByWant pairs)

/-! ### `Join._reorder_maps` (ir.py lines 1272-1322)

For a Left (or post-swap Right) join the two unordered gather maps are
reordered: a `0..rows-1` sequence is gathered through each map under that
map's own out-of-bounds policy (`DONT_CHECK` for the probe side, `NULLIFY`
for the other side), and both maps are stably sorted together by the two
gathered sequences, ascending, nulls after.  A gather-map entry is a row
index; the other side's unmatched-row sentinel (out of bounds, nullified
on gather) is modelled as `none`. -/

/-- `plc.copying.gather(plc.Table([sequence(rows)]), g, DONT_CHECK)`:
index the iota sequence (defined for in-bounds entries). -/
def gatherSeq (rows : Nat) (g : List Nat) : List (Option Nat) :=
  g.map (fun k => (List.range rows).get? k)

/-- `plc.copying.gather(plc.Table([sequence(rows)]), g, NULLIFY)`: index
the iota sequence, producing null for the out-of-bounds sentinel. -/
def gatherSeqNullify (rows : Nat) (g : List (Option Nat)) : List (Option Nat) :=
  g.map (fun k? => k?.bind (fun k => (List.range rows).get? k))

/-- Ascending comparison of nullable indices with nulls AFTER. -/
def optCmpAfter (x y : Option Nat) : Ordering :=
  match x, y with
  | none, none => .eq
  | none, some _ => .gt
  | some _, none => .lt
  | some a, some b => if a < b then .lt else if a = b then .eq else .gt

/-- Lexicographic comparison of the two sort-key cells
(left gathered index, right gathered index), ascending, nulls after. -/
def keyCmp (a b : Option Nat × Option Nat) : Ordering :=
  match optCmpAfter a.1 b.1 with
  | .lt => .lt
  | .gt => .gt
  | .eq => optCmpAfter a.2 b.2

/-- Non-strict version of `keyCmp`, for the stable sort. -/
def keyLe (a b : Option Nat × Option Nat) : Bool :=
  keyCmp a b ≠ .gt

/-- `Join._reorder_maps(left_rows, lg, DONT_CHECK, right_rows, rg,
NULLIFY)`: gather iota sequences through both maps, stably sort the pair
of maps by the gathered sequences (ascending, nulls after). -/
def reorderMaps (left_rows : Nat) (lg : List Nat) (right_rows : Nat)
    (rg : List (Option Nat)) : List (Nat × Option Nat) :=
  let left_order := gatherSeq left_rows lg
  let right_order := gatherSeqNullify right_rows rg
  let keyed := (lg.zip rg).zip (left_order.zip right_order)
  (keyed.mergeSort (fun a b => keyLe a.2 b.2)).map (·.1)

/-- The polars-mandated row order of a Left join, used as the contract of
the join primitive up to reordering: for each probe (left) row in input
order, the matching other-side rows in their input order, or a single
null-marked entry when there is no match. -/
def canonicalLeftJoin (lkeys rkeys : List Row) : List (Nat × Option Nat) :=
  ((List.range lkeys.length).map (fun i =>
    let ms := (List.range rkeys.length).filter
      (fun j => rkeys.getD j [] = lkeys.getD i [])
    if ms.isEmpty then [((i : Nat), (none : Option Nat))]
    else ms.map (fun j => (i, some j)))).flatten

/-- The probe-order relation on reordered gather-map entries: strictly
later probe row, or the same probe row with a strictly later (non-null)
other-side row. -/
def probeOrdered (p q : Nat × Option Nat) : Prop :=
  p.1 < q.1 ∨ (p.1 = q.1 ∧ ∃ a b, p.2 = some a ∧ q.2 = some b ∧ a < b)

/-- Default column (for indexed access with defaults). -/
instance : Inhabited Column := ⟨⟨"", [], .NO, .ASCENDING, .BEFORE⟩⟩

/-! ## Theorems -/

/-- A nonempty list all of whose members are `n` dedups to `[n]`. -/
theorem dedup_of_all_eq {l : List Nat} {n : Nat} (hne : l ≠ [])
    (hall : ∀ x ∈ l, x = n) : l.dedup = [n] := by
  induction l with
  | nil => exact absurd rfl hne
  | cons a t ih =>
      have ha : a = n := hall a (by simp)
      cases t with
      | nil => simp [List.dedup, ha]
      | cons b t' =>
          have hb : b = n := hall b (by simp)
          have ht : (b :: t').dedup = [n] :=
            ih (by simp) (fun x hx => hall x (by simp [hx]))
          rw [List.dedup_cons_of_mem (by simp [ha, hb]), ht]

/-- Size of a broadcast column. -/
theorem broadcastColumn_size (nrows : Nat) (c : Column) :
    (broadcastColumn nrows c).size = if c.size = 1 then nrows else c.size := by
  simp only [broadcastColumn, Column.size]
  by_cases h : c.values.length = 1 <;> simp [h]

/-- Reduction of `broadcast` on a nonempty column list. -/
theorem broadcast_eq_of_ne_empty (columns : List Column) (target : Option Nat)
    (hne : columns ≠ []) :
    broadcast columns target =
      if (columns.map Column.size).dedup.all (· = 1) then
        match target with
        | none => .ok columns
        | some t => .ok (columns.map (broadcastColumn t))
      else
        match ((columns.map Column.size).filter (· ≠ 1)).dedup with
        | [nrows] =>
            if target.all (· = nrows) then
              .ok (columns.map (broadcastColumn nrows))
            else .error "Cannot broadcast columns of length nrows to target_length"
        | _ => .error "Mismatching column lengths" := by
  have hempty : ¬ (columns.isEmpty = true) := by
    cases columns with
    | nil => exact absurd rfl hne
    | cons c t => simp
  unfold broadcast
  rw [if_neg hempty]

/-- C4: for every non-empty set of input columns, `broadcast` returns
columns all of length `n` when the input lengths are a subset of `{1, n}`
(`n` the non-unit length, target absent or equal to `n`); returns the
inputs unchanged when every input has length 1 and no `target_length` is
given, and broadcasts them all to `target_length` when one is given; and
raises a `RuntimeError` when the lengths contain two distinct values both
different from 1, or when `target_length` differs from the single
non-unit length `n`. -/
theorem C4_broadcast_lengths (columns : List Column) (target : Option Nat)
    (hne : columns ≠ []) :
    ((∀ n, n ≠ 1 → (∀ c ∈ columns, c.size = 1 ∨ c.size = n) →
      (∃ c ∈ columns, c.size = n) →
      (target = none ∨ target = some n) →
      ∃ out, broadcast columns target = .ok out ∧
        out.length = columns.length ∧ ∀ c ∈ out, c.size = n) ∧
    ((∀ c ∈ columns, c.size = 1) → target = none →
      broadcast columns target = .ok columns) ∧
    (∀ t, (∀ c ∈ columns, c.size = 1) → target = some t →
      ∃ out, broadcast columns target = .ok out ∧
        out.length = columns.length ∧ ∀ c ∈ out, c.size = t) ∧
    (∀ a b, a ≠ 1 → b ≠ 1 → a ≠ b →
      (∃ c ∈ columns, c.size = a) → (∃ c ∈ columns, c.size = b) →
      ∃ e, broadcast columns target = .error e) ∧
    (∀ n t, n ≠ 1 → (∀ c ∈ columns, c.size = 1 ∨ c.size = n) →
      (∃ c ∈ columns, c.size = n) → target = some t → t ≠ n →
      ∃ e, broadcast columns target = .error e)) := by
  rw [broadcast_eq_of_ne_empty columns target hne]
  refine ⟨?_, ?_, ?_, ?_, ?_⟩
  · -- subset of {1, n}, compatible target
    rintro n hn1 hsub ⟨c₀, hc₀, hc₀n⟩ htarget
    have hmemn : n ∈ columns.map Column.size := List.mem_map.mpr ⟨c₀, hc₀, hc₀n⟩
    have hnall : ¬ ((columns.map Column.size).dedup.all (· = 1) = true) := by
      simp only [List.all_eq_true, List.mem_dedup, decide_eq_true_eq]
      intro hall
      exact hn1 (hall n hmemn)
    have hfil : ((columns.map Column.size).filter (· ≠ 1)).dedup = [n] := by
      apply dedup_of_all_eq
      · intro h
        have hmemf : n ∈ (columns.map Column.size).filter (· ≠ 1) :=
          List.mem_filter.mpr ⟨hmemn, by simpa using hn1⟩
        rw [h] at hmemf
        simp at hmemf
      · intro x hx
        rw [List.mem_filter] at hx
        obtain ⟨hx1, hx2⟩ := hx
        obtain ⟨c, hc, hcx⟩ := List.mem_map.mp hx1
        rcases hsub c hc with h1 | h2
        · exact absurd (hcx ▸ h1) (by simpa using hx2)
        · exact hcx ▸ h2
    have htall : target.all (fun t => t = n) = true := by
      rcases htarget with h | h <;> simp [h]
    rw [if_neg hnall, hfil]
    refine ⟨columns.map (broadcastColumn n), ?_, by simp, ?_⟩
    · exact if_pos htall
    · intro c hc
      obtain ⟨c', hc', hcc⟩ := List.mem_map.mp hc
      rw [← hcc, broadcastColumn_size]
      rcases hsub c' hc' with h1 | h2
      · simp [h1]
      · rw [if_neg (by rw [h2]; exact hn1)]
        exact h2
  · -- all length 1, no target
    intro hall htn
    have h1 : ((columns.map Column.size).dedup.all (· = 1) = true) := by
      simp only [List.all_eq_true, List.mem_dedup, decide_eq_true_eq]
      intro x hx
      obtain ⟨c, hc, hcx⟩ := List.mem_map.mp hx
      exact hcx ▸ hall c hc
    rw [if_pos h1, htn]
  · -- all length 1, target t
    intro t hall htt
    have h1 : ((columns.map Column.size).dedup.all (· = 1) = true) := by
      simp only [List.all_eq_true, List.mem_dedup, decide_eq_true_eq]
      intro x hx
      obtain ⟨c, hc, hcx⟩ := List.mem_map.mp hx
      exact hcx ▸ hall c hc
    rw [if_pos h1, htt]
    refine ⟨columns.map (broadcastColumn t), rfl, by simp, ?_⟩
    intro c hc
    obtain ⟨c', hc', hcc⟩ := List.mem_map.mp hc
    rw [← hcc, broadcastColumn_size, if_pos (hall c' hc')]
  · -- two distinct non-unit lengths
    rintro a b ha hb hab ⟨ca, hca, hsa⟩ ⟨cb, hcb, hsb⟩
    have hnall : ¬ ((columns.map Column.size).dedup.all (· = 1) = true) := by
      simp only [List.all_eq_true, List.mem_dedup, decide_eq_true_eq]
      intro hall
      exact ha (hall a (List.mem_map.mpr ⟨ca, hca, hsa⟩))
    have hma : a ∈ ((columns.map Column.size).filter (· ≠ 1)).dedup := by
      rw [List.mem_dedup, List.mem_filter]
      exact ⟨List.mem_map.mpr ⟨ca, hca, hsa⟩, by simpa using ha⟩
    have hmb : b ∈ ((columns.map Column.size).filter (· ≠ 1)).dedup := by
      rw [List.mem_dedup, List.mem_filter]
      exact ⟨List.mem_map.mpr ⟨cb, hcb, hsb⟩, by simpa using hb⟩
    rw [if_neg hnall]
    rcases hl : ((columns.map Column.size).filter (· ≠ 1)).dedup with _ | ⟨x, _ | ⟨y, t⟩⟩
    · rw [hl] at hma; simp at hma
    · rw [hl] at hma hmb
      simp only [List.mem_singleton] at hma hmb
      exact absurd (hma.trans hmb.symm) hab
    · rw [hl]
      exact ⟨_, rfl⟩
  · -- target differs from the single non-unit length
    rintro n t hn1 hsub ⟨c₀, hc₀, hc₀n⟩ htt htn
    have hmemn : n ∈ columns.map Column.size := List.mem_map.mpr ⟨c₀, hc₀, hc₀n⟩
    have hnall : ¬ ((columns.map Column.size).dedup.all (· = 1) = true) := by
      simp only [List.all_eq_true, List.mem_dedup, decide_eq_true_eq]
      intro hall
      exact hn1 (hall n hmemn)
    have hfil : ((columns.map Column.size).filter (· ≠ 1)).dedup = [n] := by
      apply dedup_of_all_eq
      · intro h
        have hmemf : n ∈ (columns.map Column.size).filter (· ≠ 1) :=
          List.mem_filter.mpr ⟨hmemn, by simpa using hn1⟩
        rw [h] at hmemf
        simp at hmemf
      · intro x hx
        rw [List.mem_filter] at hx
        obtain ⟨hx1, hx2⟩ := hx
        obtain ⟨c, hc, hcx⟩ := List.mem_map.mp hx1
        rcases hsub c hc with h1 | h2
        · exact absurd (hcx ▸ h1) (by simpa using hx2)
        · exact hcx ▸ h2
    have htall : ¬ (target.all (fun x => x = n) = true) := by
      simp [htt, htn]
    rw [if_neg hnall, hfil]
    exact ⟨_, if_neg htall⟩

/-- `broadcast` either returns the inputs or maps `broadcastColumn` over
them. -/
theorem broadcast_ok_shape (columns : List Column) (target : Option Nat)
    (out : List Column) (h : broadcast columns target = .ok out) :
    out = columns ∨ ∃ nr, out = columns.map (broadcastColumn nr) := by
  by_cases hne : columns = []
  · subst hne
    unfold broadcast at h
    simp only [List.isEmpty_nil, if_true] at h
    cases h
    exact Or.inr ⟨0, rfl⟩
  · rw [broadcast_eq_of_ne_empty columns target hne] at h
    split at h
    · split at h
      · cases h; exact Or.inl rfl
      · cases h; exact Or.inr ⟨_, rfl⟩
    · split at h
      · split at h
        · cases h; exact Or.inr ⟨_, rfl⟩
        · cases h
      · cases h

/-- C10: every length-1 column that `broadcast` expands to a different
(larger) length is returned tagged `is_sorted=YES, order=ASCENDING,
null_order=BEFORE` with all values equal repetitions of its single
scalar; every input column whose length is not 1 is returned as the
identical, unmodified column. -/
theorem C10_broadcast_expanded_metadata (columns : List Column)
    (target : Option Nat) (out : List Column)
    (h : broadcast columns target = .ok out) :
    out.length = columns.length ∧
    ∀ i, i < columns.length →
      ((columns.getD i default).size ≠ 1 →
        out.getD i default = columns.getD i default) ∧
      ((columns.getD i default).size = 1 →
        (out.getD i default).size ≠ 1 →
        (out.getD i default).is_sorted = .YES ∧
        (out.getD i default).order = .ASCENDING ∧
        (out.getD i default).null_order = .BEFORE ∧
        (out.getD i default).values =
          List.replicate (out.getD i default).size
            (columns.getD i default).scalarValue) := by
  rcases broadcast_ok_shape columns target out h with heq | ⟨nr, heq⟩
  · subst heq
    refine ⟨rfl, ?_⟩
    intro i hi
    refine ⟨fun _ => rfl, fun h1 h2 => absurd h1 h2⟩
  · subst heq
    refine ⟨by simp, ?_⟩
    intro i hi
    have hmap : (columns.map (broadcastColumn nr)).getD i default =
        broadcastColumn nr (columns.getD i default) := by
      rw [List.getD_eq_getElem _ _ (by simpa using hi),
          List.getD_eq_getElem _ _ hi, List.getElem_map]
    rw [hmap]
    constructor
    · intro h1
      unfold broadcastColumn
      rw [if_pos h1]
    · intro h1 _
      unfold broadcastColumn
      rw [if_neg (by simpa using h1)]
      simp [Column.size]

/-- Witness for C10 at a concrete input: a length-1 column alongside a
length-3 column; the expanded column carries the sorted-ascending tag and
three copies of its scalar. -/
theorem C10_broadcast_expanded_metadata_witness :
    broadcast
      [⟨"s", [some 7], .NO, .DESCENDING, .AFTER⟩,
       ⟨"v", [some 1, some 2, some 3], .NO, .ASCENDING, .BEFORE⟩] none =
      .ok [⟨"s", List.replicate 3 (some 7), .YES, .ASCENDING, .BEFORE⟩,
           ⟨"v", [some 1, some 2, some 3], .NO, .ASCENDING, .BEFORE⟩] ∧
    (([⟨"s", List.replicate 3 (some 7), .YES, .ASCENDING, .BEFORE⟩,
       ⟨"v", [some 1, some 2, some 3], .NO, .ASCENDING, .BEFORE⟩] :
        List Column).getD 0 default).is_sorted = .YES := by
  have hb : broadcast
      [⟨"s", [some 7], .NO, .DESCENDING, .AFTER⟩,
       ⟨"v", [some 1, some 2, some 3], .NO, .ASCENDING, .BEFORE⟩] none =
      .ok [⟨"s", List.replicate 3 (some 7), .YES, .ASCENDING, .BEFORE⟩,
           ⟨"v", [some 1, some 2, some 3], .NO, .ASCENDING, .BEFORE⟩] := by
    rfl
  refine ⟨hb, ?_⟩
  have h := (C10_broadcast_expanded_metadata _ none _ hb).2 0 (by decide)
  exact (h.2 (by decide) (by decide)).1

/-- With pairwise-distinct column names, looking a column's own name up in
its dataframe returns that column. -/
theorem find_name_self {cs : List Column} (h : (cs.map Column.name).Nodup) :
    ∀ c ∈ cs, cs.find? (fun c2 => c2.name == c.name) = some c := by
  induction cs with
  | nil => intro c hc; simp at hc
  | cons a t ih =>
      intro c hc
      rcases List.mem_cons.mp hc with rfl | hct
      · simp [List.find?]
      · have hna : a.name ∉ t.map Column.name := (List.nodup_cons.mp h).1
        have hne : (a.name == c.name) = false := by
          rw [beq_eq_false_iff_ne]
          intro hcontr
          exact hna (hcontr ▸ List.mem_map.mpr ⟨c, hct, rfl⟩)
        rw [List.find?]
        rw [hne]
        exact ih (List.nodup_cons.mp h).2 c hct

/-- Evaluating the self-referencing column expressions of a list of
columns (against a dataframe resolving each name to that column) returns
the columns unchanged. -/
theorem mapM_colRef_self (df : DataFrame) (cs : List Column)
    (h : ∀ c ∈ cs, df.columns.find? (fun c2 => c2.name == c.name) = some c) :
    (cs.map (fun c => (c.name, c.name))).mapM
      (fun e => evaluateColRef df e.1 e.2) = some cs := by
  induction cs with
  | nil => rfl
  | cons a t ih =>
      have ha : evaluateColRef df a.name a.name = some a := by
        unfold evaluateColRef DataFrame.column_map
        rw [h a (by simp)]
        rfl
      simp only [List.map_cons, List.mapM_cons, ha,
        ih (fun c hc => h c (by simp [hc])), Option.pure_def, Option.bind_some]
      rfl

/-- C8: `Select` over all of a table's own column references, with
broadcasting disabled, returns a table equal to the input — the same
columns in the same order, with the same names and values. -/
theorem C8_select_round_trip (df : DataFrame)
    (h : (df.columns.map Column.name).Nodup) :
    selectDoEvaluate (df.columns.map (fun c => (c.name, c.name))) false df =
      .ok df := by
  unfold selectDoEvaluate
  rw [mapM_colRef_self df df.columns (find_name_self h)]
  rfl

/-- Witness for C8 at a concrete two-column table. -/
theorem C8_select_round_trip_witness :
    selectDoEvaluate [("a", "a"), ("b", "b")] false
      ⟨[⟨"a", [some 1, some 2], .NO, .ASCENDING, .BEFORE⟩,
        ⟨"b", [none, some 3], .YES, .ASCENDING, .BEFORE⟩]⟩ =
      .ok ⟨[⟨"a", [some 1, some 2], .NO, .ASCENDING, .BEFORE⟩,
            ⟨"b", [none, some 3], .YES, .ASCENDING, .BEFORE⟩]⟩ := by
  have h := C8_select_round_trip
    ⟨[⟨"a", [some 1, some 2], .NO, .ASCENDING, .BEFORE⟩,
      ⟨"b", [none, some 3], .YES, .ASCENDING, .BEFORE⟩]⟩ (by decide)
  simpa using h

/-- A successfully constructed `Scan` node passed every unsupported-
configuration check. -/
theorem scanInit_ok_no_unsupported (typ : String)
    (reader_options : ReaderOptions) (cloud_options : Option CloudOptions)
    (paths : List String) (with_columns : Option (List String))
    (skip_rows n_rows : Int) (row_index : Option (String × Int))
    (include_file_paths : Option String) (pv : Bool)
    (h : scanInit typ reader_options cloud_options paths with_columns
      skip_rows n_rows row_index include_file_paths pv = .ok ()) :
    cloudCredentialsRequested cloud_options = false ∧
    (typ = "csv" → reader_options.has_header = true) ∧
    (typ = "csv" → hasNamedNullValues reader_options = false) ∧
    (typ = "csv" → hasMultiCommentPre reader_options = false) ∧
    (typ = "ndjson" → n_rows = -1 ∧ skip_rows = 0) := by
  rw [scanInit.eq_def] at h
  by_cases hc1 : typ ∉ ["csv", "parquet", "ndjson"]
  · rw [if_pos hc1] at h
    exact Except.noConfusion h
  rw [if_neg hc1] at h
  by_cases hc2 : typ = "ndjson" ∧ (n_rows ≠ -1 ∨ skip_rows ≠ 0)
  · rw [if_pos hc2] at h
    exact Except.noConfusion h
  rw [if_neg hc2] at h
  by_cases hc3 : skip_rows < 0
  · rw [if_pos hc3] at h
    exact Except.noConfusion h
  rw [if_neg hc3] at h
  by_cases hc4 : pv = true ∧ typ = "csv" ∧ skip_rows ≠ 0
  · rw [if_pos hc4] at h
    exact Except.noConfusion h
  rw [if_neg hc4] at h
  by_cases hc5 : cloudCredentialsRequested cloud_options = true
  · rw [if_pos hc5] at h
    exact Except.noConfusion h
  rw [if_neg hc5] at h
  by_cases hc6 : paths.any (fun p => p.startsWith "https:/") = true
  · rw [if_pos hc6] at h
    exact Except.noConfusion h
  rw [if_neg hc6] at h
  by_cases hc7 : typ = "csv" ∧ reader_options.skip_rows_after_header ≠ 0
  · rw [if_pos hc7] at h
    exact Except.noConfusion h
  rw [if_neg hc7] at h
  by_cases hc8 : typ = "csv" ∧ hasNamedNullValues reader_options = true
  · rw [if_pos hc8] at h
    exact Except.noConfusion h
  rw [if_neg hc8] at h
  by_cases hc9 : typ = "csv" ∧ hasMultiCommentPre reader_options = true
  · rw [if_pos hc9] at h
    exact Except.noConfusion h
  rw [if_neg hc9] at h
  by_cases hc10 : typ = "csv" ∧ ¬reader_options.has_header = true
  · rw [if_pos hc10] at h
    exact Except.noConfusion h
  rw [if_neg hc10] at h
  by_cases hc11 : typ = "ndjson" ∧ reader_options.ignore_errors = true
  · rw [if_pos hc11] at h
    exact Except.noConfusion h
  rw [if_neg hc11] at h
  by_cases hc12 : typ = "ndjson" ∧ include_file_paths.isSome = true
  · rw [if_pos hc12] at h
    exact Except.noConfusion h
  rw [if_neg hc12] at h
  by_cases hc13 : typ = "parquet" ∧ row_index.isSome = true ∧ with_columns = some []
  · rw [if_pos hc13] at h
    exact Except.noConfusion h
  rw [if_neg hc13] at h
  refine ⟨?_, ?_, ?_, ?_, ?_⟩
  · by_contra hcon
    exact hc5 (by simpa using hcon)
  · intro hcsv
    by_contra hcon
    exact hc10 ⟨hcsv, by simpa using hcon⟩
  · intro hcsv
    by_contra hcon
    exact hc8 ⟨hcsv, by simpa using hcon⟩
  · intro hcsv
    by_contra hcon
    exact hc9 ⟨hcsv, by simpa using hcon⟩
  · intro hnd
    constructor
    · by_contra hcon
      exact hc2 ⟨hnd, Or.inl hcon⟩
    · by_contra hcon
      exact hc2 ⟨hnd, Or.inr hcon⟩

/-- C6: constructing a `Scan` node fails, before any evaluation can run,
whenever the configuration requests cloud-storage credentials, a CSV
source without a header, a per-column (`Named`) null-value specification
for CSV, a multi-character CSV comment prefix, or a row limit / row skip
(`n_rows != -1` or `skip_rows != 0`) combined with the ndjson reader. -/
theorem C6_scan_init_rejects_unsupported (typ : String)
    (reader_options : ReaderOptions) (cloud_options : Option CloudOptions)
    (paths : List String) (with_columns : Option (List String))
    (skip_rows n_rows : Int) (row_index : Option (String × Int))
    (include_file_paths : Option String) (pv : Bool)
    (hcond :
      cloudCredentialsRequested cloud_options = true ∨
      (typ = "csv" ∧ reader_options.has_header = false) ∨
      (typ = "csv" ∧ hasNamedNullValues reader_options = true) ∨
      (typ = "csv" ∧ hasMultiCommentPre reader_options = true) ∨
      (typ = "ndjson" ∧ (n_rows ≠ -1 ∨ skip_rows ≠ 0))) :
    ∃ e, scanInit typ reader_options cloud_options paths with_columns
      skip_rows n_rows row_index include_file_paths pv = .error e := by
  cases hres : scanInit typ reader_options cloud_options paths with_columns
      skip_rows n_rows row_index include_file_paths pv with
  | error e => exact ⟨e, rfl⟩
  | ok u =>
      exfalso
      cases u
      have hneg := scanInit_ok_no_unsupported typ reader_options cloud_options
        paths with_columns skip_rows n_rows row_index include_file_paths pv hres
      obtain ⟨hcl, hh, hnv, hmc, hnd⟩ := hneg
      rcases hcond with h | h | h | h | h
      · rw [hcl] at h; exact Bool.noConfusion h
      · rw [hh h.1] at h; exact Bool.noConfusion h.2
      · rw [hnv h.1] at h; exact Bool.noConfusion h.2
      · rw [hmc h.1] at h; exact Bool.noConfusion h.2
      · rcases h.2 with hc | hc
        · exact hc (hnd h.1).1
        · exact hc (hnd h.1).2

/-- Witness for C6 at a concrete configuration: a headerless CSV scan is
rejected at construction. -/
theorem C6_scan_init_rejects_unsupported_witness :
    ∃ e, scanInit "csv" ⟨0, none, none, false, false⟩ none ["data.csv"]
      none 0 (-1) none none false = .error e :=
  C6_scan_init_rejects_unsupported "csv" ⟨0, none, none, false, false⟩ none
    ["data.csv"] none 0 (-1) none none false
    (Or.inr (Or.inl ⟨rfl, rfl⟩))

/-- C7 counterexample: two `Scan` nodes identical in every parameter and
whose `reader_options` dictionaries are semantically equal (the same
key-value bindings, a permutation of each other) but built in different
insertion orders produce different hashable representations, because
`json.dumps` serialises members in insertion order, not canonically. -/
theorem C7_scan_hashable_counterexample :
    ([(("a" : String), JVal.num 1), ("b", JVal.num 2)]).Perm
        [("b", JVal.num 2), ("a", JVal.num 1)] ∧
    scanGetHashable
        ⟨[("x", .int64)], "csv", [("a", .num 1), ("b", .num 2)], [], "cfg",
         ["p.csv"], none, 0, -1, none, none, none⟩ ≠
      scanGetHashable
        ⟨[("x", .int64)], "csv", [("b", .num 2), ("a", .num 1)], [], "cfg",
         ["p.csv"], none, 0, -1, none, none, none⟩ := by
  constructor
  · exact List.Perm.swap _ _ _
  · intro heq
    have h2 := congrArg ScanHashable.reader_options_json heq
    exact absurd h2 (by decide)

/-- C7 (amended): the hashable representation is a deterministic function
of the node's parameters with option dictionaries compared as ordered
(insertion-order) sequences; `DataFrameScan` embeds only the opaque
per-instance identifier, never the wrapped table's contents, so its
hashable is invariant under changes to the table but distinguishes
instances with different identifiers. -/
theorem C7_hashable_deterministic :
    (∀ p q : ScanNodeParams, p.schema = q.schema → p.typ = q.typ →
      p.reader_options = q.reader_options →
      p.cloud_options = q.cloud_options →
      p.config_options = q.config_options → p.paths = q.paths →
      p.with_columns = q.with_columns → p.skip_rows = q.skip_rows →
      p.n_rows = q.n_rows → p.row_index = q.row_index →
      p.include_file_paths = q.include_file_paths →
      p.predicate = q.predicate →
      scanGetHashable p = scanGetHashable q) ∧
    (∀ n1 n2 : DataFrameScanNode, n1.schema = n2.schema →
      n1.id_for_hash = n2.id_for_hash → n1.projection = n2.projection →
      n1.config_options = n2.config_options →
      dataFrameScanGetHashable n1 = dataFrameScanGetHashable n2) ∧
    (∀ n1 n2 : DataFrameScanNode, n1.id_for_hash ≠ n2.id_for_hash →
      dataFrameScanGetHashable n1 ≠ dataFrameScanGetHashable n2) := by
  refine ⟨?_, ?_, ?_⟩
  · intro p q h1 h2 h3 h4 h5 h6 h7 h8 h9 h10 h11 h12
    simp [scanGetHashable, h1, h2, h3, h4, h5, h6, h7, h8, h9, h10, h11, h12]
  · intro n1 n2 h1 h2 h3 h4
    simp [dataFrameScanGetHashable, h1, h2, h3, h4]
  · intro n1 n2 hne heq
    exact hne (congrArg DataFrameScanHashable.id_for_hash heq)

/-- Witness for the amended C7: two `DataFrameScan` nodes wrapping
different tables but sharing one identifier hash identically; two nodes
with different identifiers do not. -/
theorem C7_hashable_deterministic_witness :
    dataFrameScanGetHashable
        ⟨[("x", .int64)], ⟨[⟨"x", [some 1], .NO, .ASCENDING, .BEFORE⟩]⟩,
         42, none, "cfg"⟩ =
      dataFrameScanGetHashable
        ⟨[("x", .int64)], ⟨[⟨"x", [some 2, some 3], .NO, .ASCENDING, .BEFORE⟩]⟩,
         42, none, "cfg"⟩ ∧
    dataFrameScanGetHashable
        ⟨[("x", .int64)], ⟨[]⟩, 0, none, "cfg"⟩ ≠
      dataFrameScanGetHashable
        ⟨[("x", .int64)], ⟨[]⟩, 1, none, "cfg"⟩ :=
  ⟨C7_hashable_deterministic.2.1 _ _ rfl rfl rfl rfl,
   C7_hashable_deterministic.2.2 _ _ (by decide)⟩

/-- The `sum` post-processing column reference contains no `fill_null`. -/
theorem sumPostCol_no_fill (dt : DType) (name : String) :
    (sumPostCol dt name).hasFillNull = false := by
  unfold sumPostCol
  split <;> simp [AExpr.hasFillNull]

/-- `anyFillNull` is false exactly when no member contains `fill_null`. -/
theorem anyFillNull_eq_false_iff (l : List AExpr) :
    anyFillNull l = false ↔ ∀ e ∈ l, e.hasFillNull = false := by
  induction l with
  | nil => simp [anyFillNull]
  | cons a t ih => simp [anyFillNull, ih]

/-- Mapping `ANamed.value` over fill-free posts stays fill-free. -/
theorem anyFillNull_map_value (l : List ANamed)
    (h : ∀ p ∈ l, p.value.hasFillNull = false) :
    anyFillNull (l.map ANamed.value) = false := by
  rw [anyFillNull_eq_false_iff]
  intro e he
  obtain ⟨p, hp, hpe⟩ := List.mem_map.mp he
  exact hpe ▸ h p hp

/-- `headValue` of fill-free posts is fill-free. -/
theorem headValue_no_fill (posts : List ANamed)
    (h : ∀ p ∈ posts, p.value.hasFillNull = false) :
    (headValue posts).hasFillNull = false := by
  cases posts with
  | nil => simp [headValue, AExpr.hasFillNull]
  | cons p rest => exact h p (by simp)

/-- Away from the top of an aggregation expression (`is_top = False`), the
decomposer never introduces a `fill_null` into the post-aggregation
expression. -/
theorem decompose_no_fill_when_not_top :
    (∀ (name : String) (e : AExpr) (ctr : Nat) (isTop : Bool),
      ∀ aggs post hasAgg ctr2, isTop = false → e.hasFillNull = false →
        decomposeSingleAgg name e ctr isTop = .ok (aggs, post, hasAgg, ctr2) →
        post.value.hasFillNull = false) ∧
    (∀ (es : List AExpr) (ctr : Nat),
      ∀ aggs posts hasAggs ctr2, anyFillNull es = false →
        decomposeChildren es ctr = .ok (aggs, posts, hasAggs, ctr2) →
        ∀ p ∈ posts, p.value.hasFillNull = false) := by
  apply decomposeSingleAgg.mutual_induct
  case case1 =>
    intro name ctr isTop dtype cname aggs post hasAgg ctr2 htop hnf heq
    rw [decomposeSingleAgg.eq_def] at heq
    simp at heq
    obtain ⟨h1, h2, h3, h4⟩ := heq
    subst h2
    simp [AExpr.hasFillNull]
  case case2 =>
    intro name ctr isTop dt aggs post hasAgg ctr2 htop hnf heq
    rw [decomposeSingleAgg.eq_def] at heq
    simp at heq
    obtain ⟨h1, h2, h3, h4⟩ := heq
    subst h2
    simp [AExpr.hasFillNull]
  case case3 =>
    intro name ctr isTop dtype value aggs post hasAgg ctr2 htop hnf heq
    rw [decomposeSingleAgg.eq_def] at heq
    simp at heq
    obtain ⟨h1, h2, h3, h4⟩ := heq
    subst h2
    exact hnf
  case case4 =>
    intro name ctr isTop dt aname opts aggs post hasAgg ctr2 htop hnf heq
    rw [decomposeSingleAgg.eq_def] at heq
    simp at heq
  case case5 =>
    intro name ctr isTop dt aname opts c rest hq aggs post hasAgg ctr2 htop hnf heq
    rw [decomposeSingleAgg.eq_def] at heq
    simp [hq] at heq
  case case6 =>
    intro name ctr isTop dt aname opts c rest hq needsMasking hmo
    intro aggs post hasAgg ctr2 htop hnf heq
    have hmo2 : ((aname = "min" ∨ aname = "max") ∧
        c.dtype.isFloatingPoint = true) ∧ opts = true := hmo
    have hq2 : aname = "quantile" ∨ rest = [] := by
      by_cases ha : aname = "quantile"
      · exact Or.inl ha
      · refine Or.inr (List.length_eq_zero.mp ?_)
        by_contra hr
        exact hq ⟨ha, hr⟩
    rcases hq2 with rfl | rfl
    · rcases hmo2.1.1 with h | h <;> exact absurd h (by decide)
    · rw [decomposeSingleAgg.eq_def] at heq
      simp [hmo2] at heq
  case case7 =>
    intro name ctr isTop dt aname opts c rest hq needsMasking hmo msg hrec ih
    intro aggs post hasAgg ctr2 htop hnf heq
    have hmo2 : ¬(((aname = "min" ∨ aname = "max") ∧
        c.dtype.isFloatingPoint = true) ∧ opts = true) := hmo
    have hq2 : aname = "quantile" ∨ rest = [] := by
      by_cases ha : aname = "quantile"
      · exact Or.inl ha
      · refine Or.inr (List.length_eq_zero.mp ?_)
        by_contra hr
        exact hq ⟨ha, hr⟩
    rcases hq2 with rfl | rfl <;>
      (rw [decomposeSingleAgg.eq_def] at heq
       simp [hmo2, hrec] at heq)
  case case8 =>
    intro name ctr isTop dt aname opts c rest hq needsMasking hmo
    intro fst fst1 ctr3 hrec ih aggs post hasAgg ctr2 htop hnf heq
    have hmo2 : ¬(((aname = "min" ∨ aname = "max") ∧
        c.dtype.isFloatingPoint = true) ∧ opts = true) := hmo
    have hq2 : aname = "quantile" ∨ rest = [] := by
      by_cases ha : aname = "quantile"
      · exact Or.inl ha
      · refine Or.inr (List.length_eq_zero.mp ?_)
        by_contra hr
        exact hq ⟨ha, hr⟩
    rcases hq2 with rfl | rfl <;>
      (rw [decomposeSingleAgg.eq_def] at heq
       simp [hmo2, hrec] at heq)
  case case9 =>
    intro name ctr isTop dt aname opts c rest hq needsMasking hmo
    intro fst fst1 hAgg ctr3 hrec hAggF hmask ih
    intro aggs post hasAgg ctr2 htop hnf heq
    have hmo2 : ¬(((aname = "min" ∨ aname = "max") ∧
        c.dtype.isFloatingPoint = true) ∧ opts = true) := hmo
    have hmask2 : (aname = "min" ∨ aname = "max") ∧
        c.dtype.isFloatingPoint = true := hmask
    have hq2 : aname = "quantile" ∨ rest = [] := by
      by_cases ha : aname = "quantile"
      · exact Or.inl ha
      · refine Or.inr (List.length_eq_zero.mp ?_)
        by_contra hr
        exact hq ⟨ha, hr⟩
    have hopts : opts = false := by
      cases hob : opts
      · rfl
      · exact absurd ⟨hmask2, hob⟩ hmo2
    rcases hq2 with rfl | rfl
    · rcases hmask2.1 with h | h <;> exact absurd h (by decide)
    · rw [decomposeSingleAgg.eq_def] at heq
      simp [hopts, hmask2, hrec, hAggF] at heq
      obtain ⟨h1, h2, h3, h4⟩ := heq
      subst h2
      simp [AExpr.hasFillNull]
  case case10 =>
    intro name ctr isTop dt opts c rest fst fst1 hAgg ctr3
    intro hrec hAggF hq
    intro needsMasking hmo hnm ih aggs post hasAgg ctr2 htop hnf heq
    subst htop
    rw [decomposeSingleAgg.eq_def] at heq
    simp only [hq, hrec, hAggF, if_false, ite_false, Bool.false_eq_true] at heq
    simp at heq
    obtain ⟨h1, h2, h3, h4⟩ := heq
    subst h2
    exact sumPostCol_no_fill dt name
  case case11 =>
    intro name ctr isTop dt aname opts c rest hq needsMasking hmo
    intro fst fst1 hAgg ctr3 hrec hAggF hnm hnsum ih
    intro aggs post hasAgg ctr2 htop hnf heq
    have hmo2 : ¬(((aname = "min" ∨ aname = "max") ∧
        c.dtype.isFloatingPoint = true) ∧ opts = true) := hmo
    have hnm2 : ¬((aname = "min" ∨ aname = "max") ∧
        c.dtype.isFloatingPoint = true) := hnm
    have hq2 : aname = "quantile" ∨ rest = [] := by
      by_cases ha : aname = "quantile"
      · exact Or.inl ha
      · refine Or.inr (List.length_eq_zero.mp ?_)
        by_contra hr
        exact hq ⟨ha, hr⟩
    rcases hq2 with rfl | rfl <;>
      (rw [decomposeSingleAgg.eq_def] at heq
       simp [hnm2, hrec, hAggF, hnsum] at heq
       obtain ⟨h1, h2, h3, h4⟩ := heq
       subst h2
       simp [AExpr.hasFillNull])
  case case12 =>
    intro name ctr isTop dtype children aggs post hasAgg ctr2 htop hnf heq
    rw [decomposeSingleAgg.eq_def] at heq
    simp at heq
  case case13 =>
    intro name ctr isTop dt child msg hrecC ihC
    intro aggs post hasAgg ctr2 htop hnf heq
    rw [decomposeSingleAgg.eq_def] at heq
    simp [hrecC] at heq
  case case14 =>
    intro name ctr isTop dt child aggs0 posts hasAggs ctr3 hrecC hany ihC
    intro aggs post hasAgg ctr2 htop hnf heq
    rw [decomposeSingleAgg.eq_def] at heq
    simp [hrecC, hany] at heq
    obtain ⟨h1, h2, h3, h4⟩ := heq
    subst h2
    have hchild : child.hasFillNull = false := by
      simpa [AExpr.hasFillNull] using hnf
    have hlist : anyFillNull [child] = false := by
      simp [anyFillNull, hchild]
    have hposts := ihC aggs0 posts hasAggs ctr3 hlist hrecC
    simpa [AExpr.hasFillNull] using headValue_no_fill posts hposts
  case case15 =>
    intro name ctr isTop dt child aggs0 posts hasAggs ctr3 hrecC hany ihC
    intro aggs post hasAgg ctr2 htop hnf heq
    rw [decomposeSingleAgg.eq_def] at heq
    simp [hrecC, hany] at heq
    obtain ⟨h1, h2, h3, h4⟩ := heq
    subst h2
    simp [AExpr.hasFillNull]
  case case16 =>
    intro name ctr isTop dt f children msg hrecC ihC
    intro aggs post hasAgg ctr2 htop hnf heq
    rw [decomposeSingleAgg.eq_def] at heq
    simp [hrecC] at heq
  case case17 =>
    intro name ctr isTop dt f children aggs0 posts hasAggs ctr3 hrecC hany ihC
    intro aggs post hasAgg ctr2 htop hnf heq
    rw [decomposeSingleAgg.eq_def] at heq
    simp [hrecC, hany] at heq
    obtain ⟨h1, h2, h3, h4⟩ := heq
    subst h2
    simp only [AExpr.hasFillNull] at hnf ⊢
    simp only [Bool.or_eq_false_iff] at hnf ⊢
    refine ⟨hnf.1, ?_⟩
    exact anyFillNull_map_value posts (ihC aggs0 posts hasAggs ctr3 hnf.2 hrecC)
  case case18 =>
    intro name ctr isTop dt f children aggs0 posts hasAggs ctr3 hrecC hany ihC
    intro aggs post hasAgg ctr2 htop hnf heq
    rw [decomposeSingleAgg.eq_def] at heq
    simp [hrecC, hany] at heq
    obtain ⟨h1, h2, h3, h4⟩ := heq
    subst h2
    simp [AExpr.hasFillNull]
  case case19 =>
    intro name ctr isTop dt op children msg hrecC ihC
    intro aggs post hasAgg ctr2 htop hnf heq
    rw [decomposeSingleAgg.eq_def] at heq
    simp [hrecC] at heq
  case case20 =>
    intro name ctr isTop dt op children aggs0 posts hasAggs ctr3 hrecC hany ihC
    intro aggs post hasAgg ctr2 htop hnf heq
    rw [decomposeSingleAgg.eq_def] at heq
    simp [hrecC, hany] at heq
    obtain ⟨h1, h2, h3, h4⟩ := heq
    subst h2
    simp only [AExpr.hasFillNull] at hnf ⊢
    exact anyFillNull_map_value posts (ihC aggs0 posts hasAggs ctr3 hnf hrecC)
  case case21 =>
    intro name ctr isTop dt op children aggs0 posts hasAggs ctr3 hrecC hany ihC
    intro aggs post hasAgg ctr2 htop hnf heq
    rw [decomposeSingleAgg.eq_def] at heq
    simp [hrecC, hany] at heq
    obtain ⟨h1, h2, h3, h4⟩ := heq
    subst h2
    simp [AExpr.hasFillNull]
  case case22 =>
    intro ctr aggs posts hasAggs ctr2 hnil heq
    rw [decomposeChildren.eq_def] at heq
    simp at heq
    obtain ⟨h1, h2, h3, h4⟩ := heq
    subst h2
    simp
  case case23 =>
    intro ctr c rest msg hrec ih aggs posts hasAggs ctr2 hnf heq
    rw [decomposeChildren.eq_def] at heq
    simp [hrec] at heq
  case case24 =>
    intro ctr c rest fst fst1 hAgg ctr3 hrec1 msg hrecR ihc ihr
    intro aggs posts hasAggs ctr2 hnf heq
    rw [decomposeChildren.eq_def] at heq
    simp [hrec1, hrecR] at heq
  case case25 =>
    intro ctr c rest fst fst1 hAgg ctr3 hrec1 aggs0 posts0 hasAggs0 ctr4
    intro hrecR ihc ihr aggs posts hasAggs ctr2 hnf heq
    rw [decomposeChildren.eq_def] at heq
    simp [hrec1, hrecR] at heq
    obtain ⟨h1, h2, h3, h4⟩ := heq
    subst h2
    simp only [anyFillNull, Bool.or_eq_false_iff] at hnf
    intro p hp
    rcases List.mem_cons.mp hp with rfl | hp2
    · exact ihc fst p hAgg ctr3 rfl hnf.1 hrec1
    · exact ihr aggs0 posts0 hasAggs0 ctr4 hnf.2 hrecR p hp2

/-- C5: an aggregation that is exactly a top-level `sum` gets a
post-aggregation expression filling nulls with the literal 0 (restoring
`sum(empty group) = 0`); a sum nested inside a further pointwise
expression is decomposed with `is_top = False` throughout, so no
`fill_null` appears anywhere in the emitted post-aggregation expression
and the primitive's null propagates unchanged. -/
theorem C5_sum_empty_group_fill :
    (∀ (name : String) (dt : DType) (opts : Bool) (child : AExpr)
       (ctr : Nat) (aggs0 : List ANamed) (post0 : ANamed) (ctr2 : Nat),
      decomposeSingleAgg (genName ctr) child (ctr + 1) false =
          .ok (aggs0, post0, false, ctr2) →
      decomposeSingleAgg name (.agg dt "sum" opts [child]) ctr true =
        .ok ([⟨name, .agg dt "sum" opts [child]⟩],
             ⟨name, .unary dt "fill_null" [sumPostCol dt name, .lit dt 0]⟩,
             true, ctr2)) ∧
    (∀ (name : String) (e : AExpr) (ctr : Nat) (aggs : List ANamed)
       (post : ANamed) (hasAgg : Bool) (ctr2 : Nat),
      e.isPointwise = true → e.hasFillNull = false →
      decomposeSingleAgg name e ctr true = .ok (aggs, post, hasAgg, ctr2) →
      post.value.hasFillNull = false) := by
  constructor
  · intro name dt opts child ctr aggs0 post0 ctr2 h
    rw [decomposeSingleAgg.eq_def]
    simp [h]
  · intro name e ctr aggs post hasAgg ctr2 hpw hnf heq
    match e, hpw with
    | .cast dt child, _ =>
        rcases hrc : decomposeChildren [child] ctr with msg | ⟨aggs0, posts, has0, ctr3⟩
        · rw [decomposeSingleAgg.eq_def] at heq
          simp [hrc] at heq
        · rw [decomposeSingleAgg.eq_def] at heq
          by_cases hany : has0.any id = true
          · simp [hrc, hany] at heq
            obtain ⟨h1, h2, h3, h4⟩ := heq
            subst h2
            have hchild : child.hasFillNull = false := by
              simpa [AExpr.hasFillNull] using hnf
            have hposts := decompose_no_fill_when_not_top.2 [child] ctr
              aggs0 posts has0 ctr3 (by simp [anyFillNull, hchild]) hrc
            simpa [AExpr.hasFillNull] using headValue_no_fill posts hposts
          · simp [hrc, hany] at heq
            obtain ⟨h1, h2, h3, h4⟩ := heq
            subst h2
            simp [AExpr.hasFillNull]
    | .unary dt f children, _ =>
        rcases hrc : decomposeChildren children ctr with msg | ⟨aggs0, posts, has0, ctr3⟩
        · rw [decomposeSingleAgg.eq_def] at heq
          simp [hrc] at heq
        · rw [decomposeSingleAgg.eq_def] at heq
          by_cases hany : has0.any id = true
          · simp [hrc, hany] at heq
            obtain ⟨h1, h2, h3, h4⟩ := heq
            subst h2
            simp only [AExpr.hasFillNull, Bool.or_eq_false_iff] at hnf ⊢
            refine ⟨hnf.1, ?_⟩
            exact anyFillNull_map_value posts
              (decompose_no_fill_when_not_top.2 children ctr
                aggs0 posts has0 ctr3 hnf.2 hrc)
          · simp [hrc, hany] at heq
            obtain ⟨h1, h2, h3, h4⟩ := heq
            subst h2
            simp [AExpr.hasFillNull]
    | .binop dt op children, _ =>
        rcases hrc : decomposeChildren children ctr with msg | ⟨aggs0, posts, has0, ctr3⟩
        · rw [decomposeSingleAgg.eq_def] at heq
          simp [hrc] at heq
        · rw [decomposeSingleAgg.eq_def] at heq
          by_cases hany : has0.any id = true
          · simp [hrc, hany] at heq
            obtain ⟨h1, h2, h3, h4⟩ := heq
            subst h2
            simp only [AExpr.hasFillNull] at hnf ⊢
            exact anyFillNull_map_value posts
              (decompose_no_fill_when_not_top.2 children ctr
                aggs0 posts has0 ctr3 hnf hrc)
          · simp [hrc, hany] at heq
            obtain ⟨h1, h2, h3, h4⟩ := heq
            subst h2
            simp [AExpr.hasFillNull]

/-- Witness for C5: a top-level `sum` over a column gets the `fill_null`
post-expression; the same sum nested under a pointwise addition does not. -/
theorem C5_sum_empty_group_fill_witness :
    decomposeSingleAgg "out" (.agg .int64 "sum" false [.col .int64 "x"]) 0
        true =
      .ok ([⟨"out", .agg .int64 "sum" false [.col .int64 "x"]⟩],
           ⟨"out", .unary .int64 "fill_null"
              [sumPostCol .int64 "out", .lit .int64 0]⟩, true, 1) ∧
    (AExpr.binop .int64 "add"
        [.col .int64 (genName 0), .col .int64 "y"]).hasFillNull = false := by
  constructor
  · exact C5_sum_empty_group_fill.1 "out" .int64 false (.col .int64 "x") 0
      [⟨genName 0, .col .int64 "x"⟩] ⟨genName 0, .col .int64 "x"⟩ 1
      (by simp [decomposeSingleAgg])
  · exact C5_sum_empty_group_fill.2 "nested"
      (.binop .int64 "add"
        [.agg .int64 "sum" false [.col .int64 "x"], .col .int64 "y"]) 0
      [⟨genName 0, .agg .int64 "sum" false [.col .int64 "x"]⟩,
       ⟨genName 2, .col .int64 "y"⟩]
      ⟨"nested", .binop .int64 "add"
        [.col .int64 (genName 0), .col .int64 "y"]⟩ true 3
      rfl (by simp [AExpr.hasFillNull, anyFillNull])
      (by simp [decomposeSingleAgg, decomposeChildren, sumPostCol, genName])

/-- `valCmp` answers `.eq` exactly on equal cells. -/
theorem valCmp_eq_iff (o : SortOrder) (no : NullOrder) (a b : Val) :
    valCmp o no a b = .eq ↔ a = b := by
  rcases a with _ | x <;> rcases b with _ | y
  · rcases o <;> rcases no <;> simp [valCmp]
  · rcases o <;> rcases no <;> simp [valCmp]
  · rcases o <;> rcases no <;> simp [valCmp]
  · rcases o <;> rcases no <;>
      (simp only [valCmp]
       split_ifs with h1 h2
       · simp
         omega
       · simp [h2]
       · simp
         omega)

theorem valCmp_swap (o : SortOrder) (no : NullOrder) (a b : Val) :
    valCmp o no a b = (valCmp o no b a).swap := by
  rcases a with _ | x <;> rcases b with _ | y
  · rcases o <;> rcases no <;> simp [valCmp, Ordering.swap]
  · rcases o <;> rcases no <;> simp [valCmp, Ordering.swap]
  · rcases o <;> rcases no <;> simp [valCmp, Ordering.swap]
  · rcases o <;> rcases no <;>
      (simp only [valCmp]
       split_ifs <;> (try simp_all [Ordering.swap]) <;> first | rfl | omega)

theorem valCmp_lt_trans (o : SortOrder) (no : NullOrder) {a b c : Val}
    (h1 : valCmp o no a b = .lt) (h2 : valCmp o no b c = .lt) :
    valCmp o no a c = .lt := by
  rcases a with _ | x <;> rcases b with _ | y <;> rcases c with _ | z <;>
    rcases o <;> rcases no <;>
    simp only [valCmp] at h1 h2 ⊢ <;>
    (try split_ifs at h1 h2 ⊢) <;> simp_all <;> omega


/-- `rowCmp` over a duplicated single key spec equals the single spec. -/
theorem rowCmp_pair_dup (s : Nat × SortOrder × NullOrder) (r1 r2 : Row) :
    rowCmp [s, s] r1 r2 = rowCmp [s] r1 r2 := by
  obtain ⟨i, o, no⟩ := s
  simp only [rowCmp]
  rcases h : valCmp o no (r1.getD i none) (r2.getD i none) <;> simp [h]

/-- `rowCmp` is antisymmetric under swapping. -/
theorem rowCmp_swap (specs : List (Nat × SortOrder × NullOrder)) (r1 r2 : Row) :
    rowCmp specs r1 r2 = (rowCmp specs r2 r1).swap := by
  induction specs with
  | nil => rfl
  | cons s rest ih =>
      obtain ⟨i, o, no⟩ := s
      simp only [rowCmp]
      rw [valCmp_swap]
      rcases valCmp o no (r2.getD i none) (r1.getD i none) <;>
        simp [Ordering.swap, ih]

/-- `rowLe` is total. -/
theorem rowLe_total (specs : List (Nat × SortOrder × NullOrder)) (r1 r2 : Row) :
    rowLe specs r1 r2 = true ∨ rowLe specs r2 r1 = true := by
  unfold rowLe
  rcases h : rowCmp specs r1 r2 with _ | _ | _
  · left; simp
  · left; simp
  · right
    rw [rowCmp_swap, h]
    simp [Ordering.swap]

/-- `rowLe` is transitive. -/
theorem rowLe_trans (specs : List (Nat × SortOrder × NullOrder)) {a b c : Row}
    (h1 : rowLe specs a b = true) (h2 : rowLe specs b c = true) :
    rowLe specs a c = true := by
  simp only [rowLe, ne_eq, decide_eq_true_eq] at h1 h2 ⊢
  induction specs with
  | nil => simp [rowCmp]
  | cons s rest ih =>
      obtain ⟨i, o, no⟩ := s
      simp only [rowCmp] at h1 h2 ⊢
      rcases hab : valCmp o no (a.getD i none) (b.getD i none) with _ | _ | _ <;>
        rw [hab] at h1 <;>
        rcases hbc : valCmp o no (b.getD i none) (c.getD i none) with _ | _ | _ <;>
        rw [hbc] at h2
      · rw [valCmp_lt_trans o no hab hbc]
        simp
      · rw [← (valCmp_eq_iff o no _ _).mp hbc, hab]
        simp
      · exact absurd rfl h2
      · rw [(valCmp_eq_iff o no _ _).mp hab, hbc]
        simp
      · rw [(valCmp_eq_iff o no _ _).mp hab, hbc]
        exact ih h1 h2
      · exact absurd rfl h2
      · exact absurd rfl h1
      · exact absurd rfl h1
      · exact absurd rfl h1

/-- The merge of two row lists is a permutation of their concatenation. -/
theorem mergeRows_perm (le : Row → Row → Bool) :
    ∀ xs ys, (mergeRows le xs ys).Perm (xs ++ ys) := by
  intro xs ys
  induction xs generalizing ys with
  | nil => simp [mergeRows]
  | cons x xs ihx =>
      induction ys with
      | nil => simp [mergeRows]
      | cons y ys ihy =>
          rw [mergeRows]
          split
          · exact (ihx (y :: ys)).cons x
          · exact (ihy.cons y).trans List.perm_middle.symm

/-- The merge of two sorted row lists is sorted. -/
theorem mergeRows_sorted (le : Row → Row → Bool)
    (htot : ∀ a b, le a b = true ∨ le b a = true)
    (htrans : ∀ {a b c}, le a b = true → le b c = true → le a c = true) :
    ∀ xs ys, xs.Pairwise (fun a b => le a b = true) →
      ys.Pairwise (fun a b => le a b = true) →
      (mergeRows le xs ys).Pairwise (fun a b => le a b = true) := by
  intro xs ys
  induction xs generalizing ys with
  | nil => intro _ hys; simpa [mergeRows] using hys
  | cons x xs ihx =>
      induction ys with
      | nil => intro hxs _; simpa [mergeRows] using hxs
      | cons y ys ihy =>
          intro hxs hys
          rw [mergeRows]
          split
          next hxy =>
            refine List.Pairwise.cons ?_ (ihx (y :: ys) hxs.of_cons hys)
            intro z hz
            have hz2 := (mergeRows_perm le xs (y :: ys)).mem_iff.mp hz
            rcases List.mem_append.mp hz2 with h | h
            · exact (List.pairwise_cons.mp hxs).1 z h
            · rcases List.mem_cons.mp h with rfl | h2
              · exact hxy
              · exact htrans hxy ((List.pairwise_cons.mp hys).1 z h2)
          next hxy =>
            have hyx : le y x = true := by
              rcases htot x y with h | h
              · exact absurd h hxy
              · exact h
            refine List.Pairwise.cons ?_ (ihy hxs hys.of_cons)
            intro z hz
            have hz2 := (mergeRows_perm le (x :: xs) ys).mem_iff.mp hz
            rcases List.mem_append.mp hz2 with h | h
            · rcases List.mem_cons.mp h with rfl | h2
              · exact hyx
              · exact htrans hyx ((List.pairwise_cons.mp hxs).1 z h2)
            · exact (List.pairwise_cons.mp hys).1 z h

/-- The names of a row-major rebuilt dataframe. -/
theorem dfFromRows_column_names (names : List String) (rows : List Row) :
    (dfFromRows names rows).column_names = names := by
  unfold dfFromRows DataFrame.column_names
  rw [List.map_map]
  exact List.enum_map_snd names

/-- C9 counterexample: `MergeSorted.do_evaluate` keeps exactly the
right-side columns whose names duplicate left-side names (dropping the
right-only ones), contradicting the claim that the duplicating columns
are dropped: with right = (k, a, b) and left = (k, a), the output's `a`
column contains the right side's value 20, and the claimed variant
produces a different table. -/
theorem C9_merge_sorted_counterexample :
    mergeSortedDoEvaluate "k"
        ⟨[⟨"k", [some 0], .YES, .ASCENDING, .BEFORE⟩,
          ⟨"a", [some 10], .NO, .ASCENDING, .BEFORE⟩]⟩
        ⟨[⟨"k", [some 1], .YES, .ASCENDING, .BEFORE⟩,
          ⟨"a", [some 20], .NO, .ASCENDING, .BEFORE⟩,
          ⟨"b", [some 30], .NO, .ASCENDING, .BEFORE⟩]⟩ =
      ⟨[⟨"k", [some 0, some 1], .NO, .ASCENDING, .BEFORE⟩,
        ⟨"a", [some 10, some 20], .NO, .ASCENDING, .BEFORE⟩]⟩ ∧
    mergeSortedClaimed "k"
        ⟨[⟨"k", [some 0], .YES, .ASCENDING, .BEFORE⟩,
          ⟨"a", [some 10], .NO, .ASCENDING, .BEFORE⟩]⟩
        ⟨[⟨"k", [some 1], .YES, .ASCENDING, .BEFORE⟩,
          ⟨"a", [some 20], .NO, .ASCENDING, .BEFORE⟩,
          ⟨"b", [some 30], .NO, .ASCENDING, .BEFORE⟩]⟩ ≠
      mergeSortedDoEvaluate "k"
        ⟨[⟨"k", [some 0], .YES, .ASCENDING, .BEFORE⟩,
          ⟨"a", [some 10], .NO, .ASCENDING, .BEFORE⟩]⟩
        ⟨[⟨"k", [some 1], .YES, .ASCENDING, .BEFORE⟩,
          ⟨"a", [some 20], .NO, .ASCENDING, .BEFORE⟩,
          ⟨"b", [some 30], .NO, .ASCENDING, .BEFORE⟩]⟩ := by
  have h1 : mergeRows
      (rowLe [(0, SortOrder.ASCENDING, NullOrder.BEFORE),
              (0, SortOrder.ASCENDING, NullOrder.BEFORE)])
      [[some 1, some 20]] [[some 0, some 10]] =
      [[some 0, some 10], [some 1, some 20]] := by
    simp [mergeRows, rowLe, rowCmp, valCmp]
  have h2 : mergeRows
      (rowLe [(0, SortOrder.ASCENDING, NullOrder.BEFORE),
              (1, SortOrder.ASCENDING, NullOrder.BEFORE)])
      [[some 30]] [[some 0, some 10]] =
      [[some 0, some 10], [some 30]] := by
    simp [mergeRows, rowLe, rowCmp, valCmp]
  have hact : mergeSortedDoEvaluate "k"
      ⟨[⟨"k", [some 0], .YES, .ASCENDING, .BEFORE⟩,
        ⟨"a", [some 10], .NO, .ASCENDING, .BEFORE⟩]⟩
      ⟨[⟨"k", [some 1], .YES, .ASCENDING, .BEFORE⟩,
        ⟨"a", [some 20], .NO, .ASCENDING, .BEFORE⟩,
        ⟨"b", [some 30], .NO, .ASCENDING, .BEFORE⟩]⟩ =
      ⟨[⟨"k", [some 0, some 1], .NO, .ASCENDING, .BEFORE⟩,
        ⟨"a", [some 10, some 20], .NO, .ASCENDING, .BEFORE⟩]⟩ := by
    show dfFromRows ["k", "a"]
        (mergeRows
          (rowLe [(0, SortOrder.ASCENDING, NullOrder.BEFORE),
                  (0, SortOrder.ASCENDING, NullOrder.BEFORE)])
          [[some 1, some 20]] [[some 0, some 10]]) = _
    rw [h1]
    rfl
  refine ⟨hact, ?_⟩
  have hcl : mergeSortedClaimed "k"
      ⟨[⟨"k", [some 0], .YES, .ASCENDING, .BEFORE⟩,
        ⟨"a", [some 10], .NO, .ASCENDING, .BEFORE⟩]⟩
      ⟨[⟨"k", [some 1], .YES, .ASCENDING, .BEFORE⟩,
        ⟨"a", [some 20], .NO, .ASCENDING, .BEFORE⟩,
        ⟨"b", [some 30], .NO, .ASCENDING, .BEFORE⟩]⟩ =
      ⟨[⟨"k", [some 0, some 30], .NO, .ASCENDING, .BEFORE⟩,
        ⟨"a", [some 10, none], .NO, .ASCENDING, .BEFORE⟩]⟩ := by
    show dfFromRows ["k", "a"]
        (mergeRows
          (rowLe [(0, SortOrder.ASCENDING, NullOrder.BEFORE),
                  (1, SortOrder.ASCENDING, NullOrder.BEFORE)])
          [[some 30]] [[some 0, some 10]]) = _
    rw [h2]
    rfl
  rw [hcl, hact]
  intro h
  exact absurd (congrArg DataFrame.columns h) (by decide)

/-- C9 (amended): `MergeSorted.do_evaluate` drops the right-side columns
whose names do *not* appear among the left side's names (keeping the
duplicating ones), then merges the two sorted row sets on the shared key
column; the output carries the left child's column names in the left
child's order, contains every row of both (post-drop) inputs, and is
ordered by the shared key under the children's common sort order and
null placement. -/
theorem C9_merge_sorted_amended (key : String) (left right right' : DataFrame)
    (li : Nat) (lo : SortOrder) (lno : NullOrder)
    (hdef : right' = right.discard_columns
      (right.column_names.filter (fun n => n ∉ left.column_names)))
    (hnames : right'.column_names = left.column_names)
    (hli : left.column_names.indexOf key = li)
    (hKL : keyColMeta left key = (lo, lno))
    (hKR : keyColMeta right' key = (lo, lno))
    (hsortL : left.rows.Pairwise
      (fun r1 r2 => rowLe [(li, lo, lno)] r1 r2 = true))
    (hsortR : right'.rows.Pairwise
      (fun r1 r2 => rowLe [(li, lo, lno)] r1 r2 = true)) :
    mergeSortedDoEvaluate key left right =
      dfFromRows left.column_names
        (mergeRows (rowLe [(li, lo, lno)]) right'.rows left.rows) ∧
    (mergeSortedDoEvaluate key left right).column_names = left.column_names ∧
    (mergeRows (rowLe [(li, lo, lno)]) right'.rows left.rows).Perm
      (left.rows ++ right'.rows) ∧
    (mergeRows (rowLe [(li, lo, lno)]) right'.rows left.rows).Pairwise
      (fun r1 r2 => rowLe [(li, lo, lno)] r1 r2 = true) := by
  have hle : rowLe [(li, lo, lno), (li, lo, lno)] = rowLe [(li, lo, lno)] := by
    funext r1 r2
    simp [rowLe, rowCmp_pair_dup]
  have hmain : mergeSortedDoEvaluate key left right =
      dfFromRows left.column_names
        (mergeRows (rowLe [(li, lo, lno)]) right'.rows left.rows) := by
    simp only [mergeSortedDoEvaluate]
    rw [← hdef, hKL, hKR, hnames, hli, hle]
  refine ⟨hmain, ?_, ?_, ?_⟩
  · rw [hmain]
    exact dfFromRows_column_names _ _
  · exact (mergeRows_perm _ _ _).trans List.perm_append_comm
  · exact mergeRows_sorted _ (rowLe_total _) (fun h1 h2 => rowLe_trans _ h1 h2)
      _ _ hsortR hsortL

/-- Witness for the amended C9 at concrete sorted inputs. -/
theorem C9_merge_sorted_amended_witness :
    mergeSortedDoEvaluate "k"
        ⟨[⟨"k", [some 0, some 2], .YES, .ASCENDING, .BEFORE⟩,
          ⟨"a", [some 1, some 3], .NO, .ASCENDING, .BEFORE⟩]⟩
        ⟨[⟨"k", [some 1], .YES, .ASCENDING, .BEFORE⟩,
          ⟨"a", [some 5], .NO, .ASCENDING, .BEFORE⟩,
          ⟨"b", [some 9], .NO, .ASCENDING, .BEFORE⟩]⟩ =
      dfFromRows ["k", "a"]
        (mergeRows (rowLe [(0, SortOrder.ASCENDING, NullOrder.BEFORE)])
          [[some 1, some 5]] [[some 0, some 1], [some 2, some 3]]) ∧
    (mergeRows (rowLe [(0, SortOrder.ASCENDING, NullOrder.BEFORE)])
        [[some 1, some 5]] [[some 0, some 1], [some 2, some 3]]).Perm
      ([[some 0, some 1], [some 2, some 3]] ++ [[some 1, some 5]]) ∧
    (mergeRows (rowLe [(0, SortOrder.ASCENDING, NullOrder.BEFORE)])
        [[some 1, some 5]] [[some 0, some 1], [some 2, some 3]]).Pairwise
      (fun r1 r2 =>
        rowLe [(0, SortOrder.ASCENDING, NullOrder.BEFORE)] r1 r2 = true) := by
  have h := C9_merge_sorted_amended "k"
      ⟨[⟨"k", [some 0, some 2], .YES, .ASCENDING, .BEFORE⟩,
        ⟨"a", [some 1, some 3], .NO, .ASCENDING, .BEFORE⟩]⟩
      ⟨[⟨"k", [some 1], .YES, .ASCENDING, .BEFORE⟩,
        ⟨"a", [some 5], .NO, .ASCENDING, .BEFORE⟩,
        ⟨"b", [some 9], .NO, .ASCENDING, .BEFORE⟩]⟩
      ⟨[⟨"k", [some 1], .YES, .ASCENDING, .BEFORE⟩,
        ⟨"a", [some 5], .NO, .ASCENDING, .BEFORE⟩]⟩
      0 .ASCENDING .BEFORE rfl rfl rfl rfl rfl
      (by decide) (by decide)
  exact ⟨h.1, h.2.2.1, h.2.2.2⟩

/-- Looking up the just-inserted key. -/
theorem cacheLookup_insert_self (s : CSECache) (k : Nat) (v : DataFrame × Nat) :
    cacheLookup (cacheInsert s k v) k = some v := by
  simp [cacheLookup, cacheInsert, List.find?]

/-- `find?` by key is unaffected by filtering out a different key. -/
theorem find_filter_ne (s : CSECache) (k k2 : Nat) (h : k2 ≠ k) :
    (s.filter (fun e => ¬ e.1 = k)).find? (fun e => e.1 == k2) =
      s.find? (fun e => e.1 == k2) := by
  induction s with
  | nil => rfl
  | cons e rest ih =>
      by_cases hek : e.1 = k
      · rw [List.filter_cons_of_neg (by simp [hek])]
        rw [ih, List.find?]
        have : (e.1 == k2) = false := by
          simp [hek]
          exact fun hc => h hc.symm
        rw [this]
      · rw [List.filter_cons_of_pos (by simp [hek])]
        rw [List.find?, List.find?]
        rcases hk2 : (e.1 == k2) with _ | _
        · exact ih
        · rfl

/-- Insertion at one key does not change lookups at another. -/
theorem cacheLookup_insert_ne (s : CSECache) (k k2 : Nat)
    (v : DataFrame × Nat) (h : k2 ≠ k) :
    cacheLookup (cacheInsert s k v) k2 = cacheLookup s k2 := by
  unfold cacheLookup cacheInsert cacheErase
  rw [List.find?]
  have hkk : ((k, v).1 == k2) = false := by
    simp
    exact fun hc => h hc.symm
  rw [hkk, find_filter_ne s k k2 h]

/-- Erasure removes the key. -/
theorem cacheLookup_erase_self (s : CSECache) (k : Nat) :
    cacheLookup (cacheErase s k) k = none := by
  unfold cacheLookup cacheErase
  rw [List.find?_eq_none.mpr]
  · rfl
  · intro e he
    have := (List.mem_filter.mp he).2
    simp at this ⊢
    exact this

/-- Erasure at one key does not change lookups at another. -/
theorem cacheLookup_erase_ne (s : CSECache) (k k2 : Nat) (h : k2 ≠ k) :
    cacheLookup (cacheErase s k) k2 = cacheLookup s k2 := by
  unfold cacheLookup cacheErase
  rw [find_filter_ne s k k2 h]

/-- Evaluating a plan with no key-`K` cache node neither touches the
cache entry at `K` nor logs any key-`K` visit or miss. -/
theorem keyFree_eval (K : Nat) :
    (∀ (p : Plan) (s : CSECache), keyFree K p = true →
      ∀ t s2 v m, evalPlan p s = (t, s2, v, m) →
        hitsAt s2 K = hitsAt s K ∧ v.count K = 0 ∧ m.count K = 0) ∧
    (∀ (ps : List Plan) (s : CSECache), keyFreeList K ps = true →
      ∀ ts s2 v m, evalPlans ps s = (ts, s2, v, m) →
        hitsAt s2 K = hitsAt s K ∧ v.count K = 0 ∧ m.count K = 0) := by
  apply evalPlan.mutual_induct
  · intro t s hf t2 s2 v m heq
    simp [evalPlan] at heq
    obtain ⟨-, h2, h3, h4⟩ := heq
    subst h2; subst h3; subst h4
    simp
  · intro f cs s ts s2 v m heval ih hf t2 s3 v2 m2 heq
    simp only [evalPlan, heval, Prod.mk.injEq] at heq
    obtain ⟨-, h2, h3, h4⟩ := heq
    subst h2; subst h3; subst h4
    exact ih (by simpa [keyFree] using hf) ts s2 v m heval
  · intro k r child s hmiss res s2 v m hchild ih hf t2 s3 v2 m2 heq
    simp only [keyFree, Bool.and_eq_true, decide_eq_true_eq] at hf
    obtain ⟨hkK, hfc⟩ := hf
    simp only [evalPlan, hmiss, hchild, Prod.mk.injEq] at heq
    obtain ⟨-, h2, h3, h4⟩ := heq
    subst h2; subst h3; subst h4
    obtain ⟨ih1, ih2, ih3⟩ := ih hfc res s2 v m hchild
    refine ⟨?_, ?_, ?_⟩
    · rw [hitsAt, cacheLookup_insert_ne _ _ _ _ (Ne.symm hkK), ← hitsAt, ih1]
    · simp [List.count_cons, ih2]
      exact hkK
    · simp [List.count_cons, ih3]
      exact hkK
  · intro k child s res hits hhit hf t2 s3 v2 m2 heq
    simp only [keyFree, Bool.and_eq_true, decide_eq_true_eq] at hf
    obtain ⟨hkK, hfc⟩ := hf
    simp only [evalPlan, hhit, eq_self_iff_true, if_true, Prod.mk.injEq] at heq
    obtain ⟨-, h2, h3, h4⟩ := heq
    subst h2; subst h3; subst h4
    refine ⟨?_, ?_, ?_⟩
    · rw [hitsAt, cacheLookup_erase_ne _ _ _ (Ne.symm hkK)]
      rfl
    · simp [List.count_cons]
      exact hkK
    · simp
  · intro k r child s res hits hhit hne hf t2 s3 v2 m2 heq
    simp only [keyFree, Bool.and_eq_true, decide_eq_true_eq] at hf
    obtain ⟨hkK, hfc⟩ := hf
    simp only [evalPlan, hhit, if_neg hne, Prod.mk.injEq] at heq
    obtain ⟨-, h2, h3, h4⟩ := heq
    subst h2; subst h3; subst h4
    refine ⟨?_, ?_, ?_⟩
    · rw [hitsAt, cacheLookup_insert_ne _ _ _ _ (Ne.symm hkK)]
      rfl
    · simp [List.count_cons]
      exact hkK
    · simp
  · intro s hf ts s2 v m heq
    simp [evalPlans] at heq
    obtain ⟨-, h2, h3, h4⟩ := heq
    subst h2; subst h3; subst h4
    simp
  · intro p rest s res s2 v m hp ts s3 v2 m2 hrest ihp ihr hf t2 s4 v3 m3 heq
    simp only [keyFreeList, Bool.and_eq_true] at hf
    simp only [evalPlans, hp, hrest, Prod.mk.injEq] at heq
    obtain ⟨-, h2, h3, h4⟩ := heq
    subst h2; subst h3; subst h4
    obtain ⟨a1, a2, a3⟩ := ihp hf.1 res s2 v m hp
    obtain ⟨b1, b2, b3⟩ := ihr hf.2 ts s3 v2 m2 hrest
    refine ⟨b1.trans a1, ?_, ?_⟩
    · simp [List.count_append, a2, b2]
    · simp [List.count_append, a3, b3]

/-- Visits compose: running `a + b` visits is running `a`, then `b`. -/
theorem iterK_add (R : Nat) (σ : Option Nat) (a b : Nat) :
    iterK R σ (a + b) =
      ((iterK R (iterK R σ a).1 b).1,
       (iterK R σ a).2 + (iterK R (iterK R σ a).1 b).2) := by
  induction a generalizing σ with
  | zero => simp [iterK]
  | succ a ih =>
      have hrw : a + 1 + b = (a + b) + 1 := by omega
      rw [hrw]
      simp only [iterK]
      rw [ih (stepK R σ)]
      simp [iterK]
      omega

/-- Strictly below the refcount, visits from a live entry keep it live
with an incremented count and produce no miss. -/
theorem iterK_some_lt (R : Nat) :
    ∀ (n h : Nat), h + n < R → iterK R (some h) n = (some (h + n), 0) := by
  intro n
  induction n with
  | zero => intro h _; simp [iterK]
  | succ n ih =>
      intro h hlt
      simp only [iterK]
      have hcond : ¬ h + 1 = R := by omega
      have hstep : stepK R (some h) = some (h + 1) := by
        simp [stepK, hcond]
      rw [hstep, ih (h + 1) (by omega)]
      simp [missBit]
      omega

/-- The visit on which the count reaches the refcount removes the entry,
still without a miss. -/
theorem iterK_some_exact (R : Nat) :
    ∀ (n h : Nat), 1 ≤ n → h + n = R → iterK R (some h) n = (none, 0) := by
  intro n
  induction n with
  | zero => intro h h0 _; omega
  | succ n ih =>
      intro h h1 heq
      rcases Nat.eq_zero_or_pos n with rfl | hn
      · simp only [iterK]
        have hcond : h + 1 = R := by omega
        have hstep : stepK R (some h) = none := by
          simp [stepK, hcond]
        rw [hstep]
        simp [iterK, missBit]
      · simp only [iterK]
        have hcond : ¬ h + 1 = R := by omega
        have hstep : stepK R (some h) = some (h + 1) := by
          simp [stepK, hcond]
        rw [hstep, ih (h + 1) hn (by omega)]
        simp [missBit]

/-- Between 1 and `R` visits from an absent entry: exactly one miss, and
the entry is live with `visits - 1` hits. -/
theorem iterK_none_le (R v : Nat) (h1 : 1 ≤ v) (h2 : v ≤ R) :
    iterK R none v = (some (v - 1), 1) := by
  obtain ⟨w, rfl⟩ : ∃ w, v = w + 1 := ⟨v - 1, by omega⟩
  simp only [iterK]
  have hstep : stepK R none = some 0 := rfl
  rw [hstep, iterK_some_lt R w 0 (by omega)]
  simp [missBit]

/-- Exactly `R + 1` visits from an absent entry (one storing evaluation
plus `R` hits): one miss, and the entry has been removed. -/
theorem iterK_none_last (R : Nat) (h : 1 ≤ R) :
    iterK R none (R + 1) = (none, 1) := by
  simp only [iterK]
  have hstep : stepK R none = some 0 := rfl
  rw [hstep, iterK_some_exact R R 0 h (by omega)]
  simp [missBit]

/-- Simulation: the key-`K` cache entry and miss count of any evaluation
are obtained by iterating the visit automaton over the key-`K` visit
count. -/
theorem evalPlan_simulation (K R : Nat) :
    (∀ (p : Plan) (s : CSECache), keyOk K R p = true →
      ∀ t s2 v m, evalPlan p s = (t, s2, v, m) →
        hitsAt s2 K = (iterK R (hitsAt s K) (v.count K)).1 ∧
        m.count K = (iterK R (hitsAt s K) (v.count K)).2) ∧
    (∀ (ps : List Plan) (s : CSECache), keyOkList K R ps = true →
      ∀ ts s2 v m, evalPlans ps s = (ts, s2, v, m) →
        hitsAt s2 K = (iterK R (hitsAt s K) (v.count K)).1 ∧
        m.count K = (iterK R (hitsAt s K) (v.count K)).2) := by
  apply evalPlan.mutual_induct
  · intro t s hok t2 s2 v m heq
    simp [evalPlan] at heq
    obtain ⟨-, h2, h3, h4⟩ := heq
    subst h2; subst h3; subst h4
    simp [iterK]
  · intro f cs s ts s2 v m heval ih hok t2 s3 v2 m2 heq
    simp only [evalPlan, heval, Prod.mk.injEq] at heq
    obtain ⟨-, h2, h3, h4⟩ := heq
    subst h2; subst h3; subst h4
    exact ih (by simpa [keyOk] using hok) ts s2 v m heval
  · intro k r child s hmiss res s2 v m hchild ih hok t2 s3 v2 m2 heq
    simp only [evalPlan, hmiss, hchild, Prod.mk.injEq] at heq
    obtain ⟨-, h2, h3, h4⟩ := heq
    subst h2; subst h3; subst h4
    simp only [keyOk, Bool.and_eq_true] at hok
    by_cases hkK : k = K
    · subst hkK
      simp at hok
      obtain ⟨⟨hrR, hfc⟩, -⟩ := hok
      subst hrR
      have hsK : hitsAt s k = none := by
        simp [hitsAt, hmiss]
      obtain ⟨f1, f2, f3⟩ := (keyFree_eval k).1 child s hfc res s2 v m hchild
      refine ⟨?_, ?_⟩
      · rw [hitsAt, cacheLookup_insert_self, hsK]
        simp [List.count_cons, f2, iterK, stepK]
      · rw [hsK]
        simp [List.count_cons, f2, f3, iterK, stepK, missBit]
    · have hok2 : keyOk K R child = true := by
        rcases hok with ⟨-, hc⟩
        exact hc
      obtain ⟨i1, i2⟩ := ih hok2 res s2 v m hchild
      have hcnt : (k :: v).count K = v.count K := by
        simp [List.count_cons]
        exact hkK
      refine ⟨?_, ?_⟩
      · rw [hitsAt, cacheLookup_insert_ne _ _ _ _ (fun hc => hkK hc.symm),
          ← hitsAt, hcnt, i1]
      · rw [hcnt]
        simpa [List.count_cons, hkK] using i2
  · intro k child s res hits hhit hok t2 s3 v2 m2 heq
    simp only [evalPlan, hhit, eq_self_iff_true, if_true, Prod.mk.injEq] at heq
    obtain ⟨-, h2, h3, h4⟩ := heq
    subst h2; subst h3; subst h4
    simp only [keyOk, Bool.and_eq_true] at hok
    by_cases hkK : k = K
    · subst hkK
      simp at hok
      obtain ⟨⟨hrR, -⟩, -⟩ := hok
      have hsK : hitsAt s k = some hits := by
        simp [hitsAt, hhit]
      refine ⟨?_, ?_⟩
      · rw [hitsAt, cacheLookup_erase_self, hsK]
        simp [List.count_cons, iterK, stepK, hrR]
      · rw [hsK]
        simp [List.count_cons, iterK, stepK, missBit, hrR]
    · refine ⟨?_, ?_⟩
      · rw [hitsAt, cacheLookup_erase_ne _ _ _ (fun hc => hkK hc.symm), ← hitsAt]
        simp [List.count_cons, hkK, iterK]
      · simp [List.count_cons, hkK, iterK]
  · intro k r child s res hits hhit hne hok t2 s3 v2 m2 heq
    simp only [evalPlan, hhit, if_neg hne, Prod.mk.injEq] at heq
    obtain ⟨-, h2, h3, h4⟩ := heq
    subst h2; subst h3; subst h4
    simp only [keyOk, Bool.and_eq_true] at hok
    by_cases hkK : k = K
    · subst hkK
      simp at hok
      obtain ⟨⟨hrR, -⟩, -⟩ := hok
      subst hrR
      have hsK : hitsAt s k = some hits := by
        simp [hitsAt, hhit]
      refine ⟨?_, ?_⟩
      · rw [hitsAt, cacheLookup_insert_self, hsK]
        simp [List.count_cons, iterK, stepK, hne]
      · rw [hsK]
        simp [List.count_cons, iterK, stepK, missBit, hne]
    · refine ⟨?_, ?_⟩
      · rw [hitsAt, cacheLookup_insert_ne _ _ _ _ (fun hc => hkK hc.symm),
          ← hitsAt]
        simp [List.count_cons, hkK, iterK]
      · simp [List.count_cons, hkK, iterK]
  · intro s hok ts s2 v m heq
    simp [evalPlans] at heq
    obtain ⟨-, h2, h3, h4⟩ := heq
    subst h2; subst h3; subst h4
    simp [iterK]
  · intro p rest s res s2 v m hp ts s3 v2 m2 hrest ihp ihr hok t2 s4 v3 m3 heq
    simp only [keyOkList, Bool.and_eq_true] at hok
    simp only [evalPlans, hp, hrest, Prod.mk.injEq] at heq
    obtain ⟨-, h2, h3, h4⟩ := heq
    subst h2; subst h3; subst h4
    obtain ⟨a1, a2⟩ := ihp hok.1 res s2 v m hp
    obtain ⟨b1, b2⟩ := ihr hok.2 ts s3 v2 m2 hrest
    rw [List.count_append, List.count_append]
    rw [iterK_add R (hitsAt s K) (v.count K) (v2.count K)]
    constructor
    · rw [b1, a1]
    · rw [a2, b2, a1]

/-- C1: within one top-level evaluation of a well-formed plan (every
key-`K` cache node carries refcount `R` and does not wrap itself), the
first visit to key `K` misses, evaluates the wrapped child and stores
`(result, hits = 0)`; every later visit returns the stored result without
recursing into the child, incrementing the hit count; between 1 and `R`
visits the child is evaluated exactly once and the entry survives with
`visits - 1` hits (never removed early); at `R + 1` visits (the
`R`-th hit, the final consumer) the child has still been evaluated
exactly once and the entry has been removed. -/
theorem C1_cache_evaluated_once (K R : Nat) (p : Plan)
    (hok : keyOk K R p = true) :
    (∀ (child : Plan) (s : CSECache), cacheLookup s K = none →
      evalPlan (Plan.cache K R child) s =
        ((evalPlan child s).1,
         cacheInsert (evalPlan child s).2.1 K ((evalPlan child s).1, 0),
         K :: (evalPlan child s).2.2.1, K :: (evalPlan child s).2.2.2)) ∧
    (∀ (child : Plan) (s : CSECache) (res : DataFrame) (h : Nat),
      cacheLookup s K = some (res, h) →
      evalPlan (Plan.cache K R child) s =
        (res,
         if h + 1 = R then cacheErase s K else cacheInsert s K (res, h + 1),
         [K], [])) ∧
    (1 ≤ (evalPlan p []).2.2.1.count K → (evalPlan p []).2.2.1.count K ≤ R →
      (evalPlan p []).2.2.2.count K = 1 ∧
      hitsAt (evalPlan p []).2.1 K =
        some ((evalPlan p []).2.2.1.count K - 1)) ∧
    ((evalPlan p []).2.2.1.count K = R + 1 → 1 ≤ R →
      (evalPlan p []).2.2.2.count K = 1 ∧
      hitsAt (evalPlan p []).2.1 K = none) := by
  have hsim := (evalPlan_simulation K R).1 p [] hok
      (evalPlan p []).1 (evalPlan p []).2.1 (evalPlan p []).2.2.1
      (evalPlan p []).2.2.2 rfl
  have hnone : hitsAt ([] : CSECache) K = none := rfl
  rw [hnone] at hsim
  refine ⟨?_, ?_, ?_, ?_⟩
  · intro child s hmiss
    simp [evalPlan, hmiss]
  · intro child s res h hhit
    simp only [evalPlan, hhit]
    by_cases hc : h + 1 = R <;> simp [hc]
  · intro h1 h2
    rw [iterK_none_le R _ h1 h2] at hsim
    exact ⟨hsim.2, hsim.1⟩
  · intro hlast hR
    rw [hlast, iterK_none_last R hR] at hsim
    exact ⟨hsim.2, hsim.1⟩

/-- Witness for C1: a plan whose two parents share one `Cache(key=5,
refcount=1)` node evaluates the wrapped child exactly once, and the
entry is removed on the first (= refcount-th) hit. -/
theorem C1_cache_evaluated_once_witness :
    keyOk 5 1 (Plan.node (fun _ => ⟨[]⟩)
      [Plan.cache 5 1 (Plan.leaf ⟨[]⟩),
       Plan.cache 5 1 (Plan.leaf ⟨[]⟩)]) = true ∧
    ((evalPlan (Plan.node (fun _ => ⟨[]⟩)
        [Plan.cache 5 1 (Plan.leaf ⟨[]⟩),
         Plan.cache 5 1 (Plan.leaf ⟨[]⟩)]) []).2.2.2.count 5 = 1 ∧
     hitsAt (evalPlan (Plan.node (fun _ => ⟨[]⟩)
        [Plan.cache 5 1 (Plan.leaf ⟨[]⟩),
         Plan.cache 5 1 (Plan.leaf ⟨[]⟩)]) []).2.1 5 = none) :=
  ⟨rfl,
   (C1_cache_evaluated_once 5 1
      (Plan.node (fun _ => ⟨[]⟩)
        [Plan.cache 5 1 (Plan.leaf ⟨[]⟩),
         Plan.cache 5 1 (Plan.leaf ⟨[]⟩)]) rfl).2.2.2 rfl (by decide)⟩

/-- Witness for C4 at a concrete input: two columns of lengths 1 and 2
broadcast to length 2. -/
theorem C4_broadcast_lengths_witness :
    ∃ out,
      broadcast [⟨"a", [some 5], .NO, .ASCENDING, .BEFORE⟩,
                 ⟨"b", [some 1, some 2], .NO, .ASCENDING, .BEFORE⟩] none =
        .ok out ∧ out.length = 2 ∧ ∀ c ∈ out, c.size = 2 := by
  have h := (C4_broadcast_lengths
    [⟨"a", [some 5], .NO, .ASCENDING, .BEFORE⟩,
     ⟨"b", [some 1, some 2], .NO, .ASCENDING, .BEFORE⟩] none (by simp)).1
    2 (by decide) (by decide) (by decide) (Or.inl rfl)
  simpa using h


/-- `indexOf` of a row list at its own head. -/
theorem rowIndexOf_cons_self (a : Row) (l : List Row) : (a :: l).indexOf a = 0 := by
  simp [List.indexOf_cons]

/-- `indexOf` of a row list past a non-matching head. -/
theorem rowIndexOf_cons_ne (a x : Row) (l : List Row) (h : x ≠ a) :
    (x :: l).indexOf a = l.indexOf a + 1 := by
  rw [List.indexOf_cons, beq_eq_false_iff_ne.mpr h]
  rfl

/-- In a filtered list, relative first-occurrence order refines the order
in the unfiltered list. -/
theorem indexOf_filter_lt (p : Row → Bool) :
    ∀ (l : List Row) (a b : Row), a ∈ l.filter p → b ∈ l.filter p →
      (l.filter p).indexOf a < (l.filter p).indexOf b →
      l.indexOf a < l.indexOf b := by
  intro l
  induction l with
  | nil => intro a b ha _ _; simp at ha
  | cons x l ih =>
    intro a b ha hb hlt
    by_cases hx : p x
    · rw [List.filter_cons_of_pos hx] at ha hb hlt
      by_cases hax : a = x
      · subst hax
        have hbx : b ≠ a := by
          rintro rfl
          exact absurd hlt (lt_irrefl _)
        rw [rowIndexOf_cons_self, rowIndexOf_cons_ne _ _ _ (Ne.symm hbx)]
        exact Nat.succ_pos _
      · have hbx : b ≠ x := by
          rintro rfl
          rw [rowIndexOf_cons_self] at hlt
          exact absurd hlt (Nat.not_lt_zero _)
        rw [rowIndexOf_cons_ne _ _ _ (Ne.symm hax),
            rowIndexOf_cons_ne _ _ _ (Ne.symm hbx)] at hlt
        rw [rowIndexOf_cons_ne _ _ _ (Ne.symm hax),
            rowIndexOf_cons_ne _ _ _ (Ne.symm hbx)]
        have ha' : a ∈ l.filter p := (List.mem_cons.mp ha).resolve_left hax
        have hb' : b ∈ l.filter p := (List.mem_cons.mp hb).resolve_left hbx
        exact Nat.succ_lt_succ (ih a b ha' hb' (Nat.lt_of_succ_lt_succ hlt))
    · rw [List.filter_cons_of_neg hx] at ha hb hlt
      have hax : a ≠ x := by
        rintro rfl
        exact hx (List.mem_filter.mp ha).2
      have hbx : b ≠ x := by
        rintro rfl
        exact hx (List.mem_filter.mp hb).2
      rw [rowIndexOf_cons_ne _ _ _ (Ne.symm hax),
          rowIndexOf_cons_ne _ _ _ (Ne.symm hbx)]
      exact Nat.succ_lt_succ (ih a b ha hb hlt)

/-- `firstOcc` keeps exactly the elements of the input. -/
theorem mem_firstOcc : ∀ (l : List Row) (r : Row), r ∈ firstOcc l ↔ r ∈ l := by
  intro l
  induction l using firstOcc.induct with
  | case1 => intro r; simp [firstOcc]
  | case2 x xs ih =>
    intro r
    rw [firstOcc]
    by_cases hrx : r = x
    · subst hrx; simp
    · simp only [List.mem_cons, hrx, false_or]
      rw [ih r, List.mem_filter]
      simp [hrx]

/-- `firstOcc` has no duplicates. -/
theorem firstOcc_nodup : ∀ l : List Row, (firstOcc l).Nodup := by
  intro l
  induction l using firstOcc.induct with
  | case1 => simp [firstOcc]
  | case2 x xs ih =>
    rw [firstOcc]
    refine List.Pairwise.cons ?_ ih
    intro b hb
    have := (List.mem_filter.mp ((mem_firstOcc _ b).mp hb)).2
    simpa using fun h => by simp [h] at this

/-- `firstOcc` lists the distinct rows by strictly increasing index of
first occurrence. -/
theorem firstOcc_pairwise_indexOf : ∀ l : List Row,
    (firstOcc l).Pairwise (fun a b => l.indexOf a < l.indexOf b) := by
  intro l
  induction l using firstOcc.induct with
  | case1 => simp [firstOcc]
  | case2 x xs ih =>
    rw [firstOcc]
    refine List.Pairwise.cons ?_ ?_
    · intro b hb
      have hbf := (mem_firstOcc _ b).mp hb
      have hbne : b ≠ x := by
        have := (List.mem_filter.mp hbf).2
        simpa using fun h => by simp [h] at this
      rw [rowIndexOf_cons_self, rowIndexOf_cons_ne _ _ _ (Ne.symm hbne)]
      exact Nat.succ_pos _
    · refine ih.imp_of_mem ?_
      intro a b ha hb hlt
      have haf := (mem_firstOcc _ a).mp ha
      have hbf := (mem_firstOcc _ b).mp hb
      have hane : a ≠ x := by
        have := (List.mem_filter.mp haf).2
        simpa using fun h => by simp [h] at this
      have hbne : b ≠ x := by
        have := (List.mem_filter.mp hbf).2
        simpa using fun h => by simp [h] at this
      rw [rowIndexOf_cons_ne _ _ _ (Ne.symm hane),
          rowIndexOf_cons_ne _ _ _ (Ne.symm hbne)]
      exact Nat.succ_lt_succ (indexOf_filter_lt _ xs a b haf hbf hlt)


/-- An `innerJoinSpec` witness can be checked by bounded (decidable)
conditions. -/
theorem innerJoinSpec_of_bounded {want haveRows : List Row}
    {pairs : List (Nat × Nat)} (hnd : pairs.Nodup)
    (hfwd : ∀ p ∈ pairs, p.1 < want.length ∧ p.2 < haveRows.length ∧
        want.getD p.1 [] = haveRows.getD p.2 [])
    (hbwd : ∀ i ∈ List.range want.length, ∀ j ∈ List.range haveRows.length,
        want.getD i [] = haveRows.getD j [] → (i, j) ∈ pairs) :
    innerJoinSpec want haveRows pairs := by
  refine ⟨hnd, fun i j => ⟨fun h => hfwd (i, j) h, fun h => ?_⟩⟩
  exact hbwd i (List.mem_range.mpr h.1) j (List.mem_range.mpr h.2.1) h.2.2

/-- Gathering a list through the identity permutation `range length`
returns the list. -/
theorem range_getD_gather (grouped : List (Row × Row)) :
    (List.range grouped.length).map (fun j => grouped.getD j ([], [])) = grouped := by
  refine List.ext_getElem (by simp) ?_
  intro k h1 h2
  rw [List.getElem_map, List.getElem_range, List.getD_eq_getElem _ _ h2]

/-- C2: the order-restoration step of `GroupBy.do_evaluate` under
`maintain_order=True`.  Given any grouping result `grouped` whose key rows
are a permutation of the distinct input keys (the grouping primitive may
emit groups in arbitrary order) and any inner-join gather maps satisfying
the join contract between the "want" order (`firstOcc keys`, the stable
distinct) and the "have" order (the grouped key rows), sorting the have
indices by the want indices and gathering every output column yields: the
output key column lists the distinct keys exactly in first-appearance
order (`firstOcc keys`, which is duplicate-free, contains exactly the
input keys, and is strictly increasing in index of first occurrence), and
the output rows are a permutation of the grouping primitive's rows. -/
theorem C2_groupby_maintain_order
    (keys : List Row) (grouped : List (Row × Row)) (pairs : List (Nat × Nat))
    (hperm : (grouped.map Prod.fst).Perm (firstOcc keys))
    (hpairs : innerJoinSpec (firstOcc keys) (grouped.map Prod.fst) pairs) :
    (groupByMaintainOrder grouped pairs).map Prod.fst = firstOcc keys ∧
    (groupByMaintainOrder grouped pairs).Perm grouped ∧
    (firstOcc keys).Nodup ∧
    (∀ r, r ∈ firstOcc keys ↔ r ∈ keys) ∧
    (firstOcc keys).Pairwise (fun a b => keys.indexOf a < keys.indexOf b) := by
  classical
  obtain ⟨hpnd, hmem⟩ := hpairs
  have hWnd : (firstOcc keys).Nodup := firstOcc_nodup keys
  have hHnd : (grouped.map Prod.fst).Nodup := hperm.nodup_iff.mpr hWnd
  have hlenH : (grouped.map Prod.fst).length = grouped.length := by simp
  have huniq2 : ∀ i j j', (i, j) ∈ pairs → (i, j') ∈ pairs → j = j' := by
    intro i j j' h1 h2
    obtain ⟨hi, hj, he⟩ := (hmem i j).mp h1
    obtain ⟨_, hj', he'⟩ := (hmem i j').mp h2
    have he2 : (grouped.map Prod.fst).getD j [] = (grouped.map Prod.fst).getD j' [] := by
      rw [← he, ← he']
    rw [List.getD_eq_getElem _ _ hj, List.getD_eq_getElem _ _ hj'] at he2
    exact hHnd.getElem_inj_iff.mp he2
  have hex1 : ∀ i, i < (firstOcc keys).length → ∃ j, (i, j) ∈ pairs := by
    intro i hi
    have hmemW : (firstOcc keys).getD i [] ∈ firstOcc keys := by
      rw [List.getD_eq_getElem _ _ hi]
      exact List.getElem_mem _
    obtain ⟨j, hj, he⟩ := List.mem_iff_getElem.mp (hperm.mem_iff.mpr hmemW)
    refine ⟨j, (hmem i j).mpr ⟨hi, hj, ?_⟩⟩
    rw [List.getD_eq_getElem _ _ hj]
    exact he.symm
  have hex2 : ∀ j, j < (grouped.map Prod.fst).length → ∃ i, (i, j) ∈ pairs := by
    intro j hj
    have hmemH : (grouped.map Prod.fst).getD j [] ∈ grouped.map Prod.fst := by
      rw [List.getD_eq_getElem _ _ hj]
      exact List.getElem_mem _
    obtain ⟨i, hi, he⟩ := List.mem_iff_getElem.mp (hperm.mem_iff.mp hmemH)
    refine ⟨i, (hmem i j).mpr ⟨hi, hj, ?_⟩⟩
    rw [List.getD_eq_getElem _ _ hi]
    exact he
  have hfst_nodup : (pairs.map Prod.fst).Nodup := by
    refine List.Nodup.map_on ?_ hpnd
    rintro ⟨i, j⟩ hp ⟨i', j'⟩ hq hfst
    simp only at hfst
    subst hfst
    rw [huniq2 i j j' hp hq]
  have hfst_mem : ∀ a : Nat, a ∈ pairs.map Prod.fst ↔ a < (firstOcc keys).length := by
    intro a
    constructor
    · intro ha
      obtain ⟨⟨i, j⟩, hp, he⟩ := List.mem_map.mp ha
      simp only at he
      subst he
      exact ((hmem i j).mp hp).1
    · intro ha
      obtain ⟨j, hj⟩ := hex1 a ha
      exact List.mem_map.mpr ⟨(a, j), hj, rfl⟩
  have hfst_perm : (pairs.map Prod.fst).Perm (List.range (firstOcc keys).length) := by
    refine (List.perm_ext_iff_of_nodup hfst_nodup (List.nodup_range _)).mpr ?_
    intro a
    rw [hfst_mem a, List.mem_range]
  have hsnd_nodup : (pairs.map Prod.snd).Nodup := by
    refine List.Nodup.map_on ?_ hpnd
    rintro ⟨i, j⟩ hp ⟨i', j'⟩ hq hsnd
    simp only at hsnd
    subst hsnd
    obtain ⟨hi, hj, he⟩ := (hmem i j).mp hp
    obtain ⟨hi', _, he'⟩ := (hmem i' j).mp hq
    have he2 : (firstOcc keys).getD i [] = (firstOcc keys).getD i' [] := by
      rw [he, he']
    rw [List.getD_eq_getElem _ _ hi, List.getD_eq_getElem _ _ hi'] at he2
    rw [hWnd.getElem_inj_iff.mp he2]
  have hsnd_mem : ∀ a : Nat, a ∈ pairs.map Prod.snd ↔ a < (grouped.map Prod.fst).length := by
    intro a
    constructor
    · intro ha
      obtain ⟨⟨i, j⟩, hp, he⟩ := List.mem_map.mp ha
      simp only at he
      subst he
      exact ((hmem _ _).mp hp).2.1
    · intro ha
      obtain ⟨i, hi⟩ := hex2 a ha
      exact List.mem_map.mpr ⟨(i, a), hi, rfl⟩
  have hsnd_perm : (pairs.map Prod.snd).Perm (List.range grouped.length) := by
    refine (List.perm_ext_iff_of_nodup hsnd_nodup (List.nodup_range _)).mpr ?_
    intro a
    rw [hsnd_mem a, List.mem_range, hlenH]
  have hSperm : (pairs.mergeSort (fun p q => p.1 ≤ q.1)).Perm pairs :=
    List.mergeSort_perm pairs _
  have hSsorted : (pairs.mergeSort (fun p q => p.1 ≤ q.1)).Pairwise
      (fun p q => p.1 ≤ q.1) := by
    have h := @List.sorted_mergeSort (Nat × Nat)
      (fun p q => decide (p.1 ≤ q.1))
      (by
        intro a b c hab hbc
        simp only [decide_eq_true_eq] at hab hbc ⊢
        exact le_trans hab hbc)
      (by
        intro a b
        simp only [Bool.or_eq_true, decide_eq_true_eq]
        exact Nat.le_total _ _)
      pairs
    exact h.imp (by intro a b hab; simpa using hab)
  have hmapfst : (pairs.mergeSort (fun p q => p.1 ≤ q.1)).map Prod.fst
      = List.range (firstOcc keys).length := by
    have hanti : IsAntisymm Nat (fun a b => a ≤ b) := ⟨fun _ _ h h' => le_antisymm h h'⟩
    exact @List.eq_of_perm_of_sorted Nat (fun a b => a ≤ b) hanti _ _
      ((hSperm.map _).trans hfst_perm)
      (List.pairwise_map.mpr hSsorted)
      ((List.pairwise_lt_range _).imp le_of_lt)
  have hlenS : (pairs.mergeSort (fun p q => p.1 ≤ q.1)).length
      = (firstOcc keys).length := by
    have h1 : ((pairs.mergeSort (fun p q => p.1 ≤ q.1)).map Prod.fst).length
        = (List.range (firstOcc keys).length).length := by rw [hmapfst]
    simpa using h1
  have hSfst : ∀ k, (hk : k < (pairs.mergeSort (fun p q => p.1 ≤ q.1)).length) →
      ((pairs.mergeSort (fun p q => p.1 ≤ q.1)).get ⟨k, hk⟩).1 = k := by
    intro k hk
    have h1 : ((pairs.mergeSort (fun p q => p.1 ≤ q.1)).map Prod.fst).getD k 0
        = (List.range (firstOcc keys).length).getD k 0 := by rw [hmapfst]
    rw [List.getD_eq_getElem _ _ (by simpa using hk),
        List.getD_eq_getElem _ _ (by rw [List.length_range, ← hlenS]; exact hk),
        List.getElem_map, List.getElem_range] at h1
    exact h1
  refine ⟨?_, ?_, hWnd, mem_firstOcc keys, firstOcc_pairwise_indexOf keys⟩
  · have hO : (groupByMaintainOrder grouped pairs).map Prod.fst
        = (pairs.mergeSort (fun p q => p.1 ≤ q.1)).map
            (fun p => (grouped.getD p.2 ([], [])).1) := by
      simp only [groupByMaintainOrder, gatherGroups, sortHaveByWant, List.map_map]
      rfl
    rw [hO]
    refine List.ext_getElem (by simpa using hlenS) ?_
    intro k h1 h2
    have hkS : k < (pairs.mergeSort (fun p q => p.1 ≤ q.1)).length := by
      simpa using h1
    rw [List.getElem_map]
    have hSk_mem : (pairs.mergeSort (fun p q => p.1 ≤ q.1))[k] ∈ pairs :=
      hSperm.mem_iff.mp (List.getElem_mem _)
    obtain ⟨hik, hjk, heq⟩ :=
      (hmem (pairs.mergeSort (fun p q => p.1 ≤ q.1))[k].1
            (pairs.mergeSort (fun p q => p.1 ≤ q.1))[k].2).mp
        (by simpa using hSk_mem)
    have hfk : (pairs.mergeSort (fun p q => p.1 ≤ q.1))[k].1 = k := hSfst k hkS
    rw [hfk] at heq
    have hjk' : (pairs.mergeSort (fun p q => p.1 ≤ q.1))[k].2 < grouped.length := by
      rw [← hlenH]
      exact hjk
    rw [List.getD_eq_getElem _ _ hjk']
    rw [List.getD_eq_getElem _ _ h2, List.getD_eq_getElem _ _ hjk,
        List.getElem_map] at heq
    exact heq.symm
  · have hO2 : groupByMaintainOrder grouped pairs
        = ((pairs.mergeSort (fun p q => p.1 ≤ q.1)).map Prod.snd).map
            (fun j => grouped.getD j ([], [])) := by
      simp only [groupByMaintainOrder, gatherGroups, sortHaveByWant]
    rw [hO2]
    have hsndS : ((pairs.mergeSort (fun p q => p.1 ≤ q.1)).map Prod.snd).Perm
        (List.range grouped.length) :=
      (hSperm.map Prod.snd).trans hsnd_perm
    have h3 := hsndS.map (fun j => grouped.getD j ([], []))
    rw [range_getD_gather grouped] at h3
    exact h3


/-- Witness for C2 at a concrete input: three groups returned by the
grouping primitive in scrambled order are restored to the order of first
appearance of their keys. -/
theorem C2_groupby_maintain_order_witness :
    (groupByMaintainOrder
          [([some 3], [some 30]), ([some 1], [some 10]), ([some 2], [some 20])]
          [(0, 1), (1, 2), (2, 0)]).map Prod.fst
        = firstOcc [[some 1], [some 2], [some 1], [some 3]] ∧
    (groupByMaintainOrder
          [([some 3], [some 30]), ([some 1], [some 10]), ([some 2], [some 20])]
          [(0, 1), (1, 2), (2, 0)]).Perm
        [([some 3], [some 30]), ([some 1], [some 10]), ([some 2], [some 20])] ∧
    (firstOcc [[some 1], [some 2], [some 1], [some 3]]).Nodup ∧
    (∀ r, r ∈ firstOcc [[some 1], [some 2], [some 1], [some 3]] ↔
        r ∈ [[some 1], [some 2], [some 1], [some 3]]) ∧
    (firstOcc [[some 1], [some 2], [some 1], [some 3]]).Pairwise
      (fun a b => [[some 1], [some 2], [some 1], [some 3]].indexOf a <
        [[some 1], [some 2], [some 1], [some 3]].indexOf b) := by
  have hfo : firstOcc [[some 1], [some 2], [some 1], [some 3]]
      = [[some 1], [some 2], [some 3]] := by
    simp [firstOcc]
  refine C2_groupby_maintain_order
    [[some 1], [some 2], [some 1], [some 3]]
    [([some 3], [some 30]), ([some 1], [some 10]), ([some 2], [some 20])]
    [(0, 1), (1, 2), (2, 0)]
    ?_ ?_
  · rw [hfo]; decide
  · refine innerJoinSpec_of_bounded (by decide) ?_ ?_
    · rw [hfo]; decide
    · rw [hfo]; decide


/-- Reflexivity of the null-aware comparator: equal cells compare equal. -/
theorem optCmpAfter_eq_iff (x y : Option Nat) :
    optCmpAfter x y = Ordering.eq ↔ x = y := by
  cases x with
  | none => cases y <;> simp [optCmpAfter]
  | some a =>
    cases y with
    | none => simp [optCmpAfter]
    | some b =>
      simp only [optCmpAfter, Option.some.injEq]
      by_cases h1 : a < b
      · simp only [h1, if_true]
        constructor
        · intro h; exact absurd h (by simp)
        · intro h; omega
      · by_cases h2 : a = b
        · simp [h1, h2]
        · simp [h1, h2]

/-- The null-aware comparator is antisymmetric between `gt` and `lt`. -/
theorem optCmpAfter_gt_iff (x y : Option Nat) :
    optCmpAfter x y = Ordering.gt ↔ optCmpAfter y x = Ordering.lt := by
  cases x with
  | none => cases y <;> simp [optCmpAfter]
  | some a =>
    cases y with
    | none => simp [optCmpAfter]
    | some b =>
      simp only [optCmpAfter]
      by_cases h1 : a < b
      · have h2 : ¬ b < a := by omega
        have h3 : ¬ b = a := by omega
        simp [h1, h2, h3]
      · by_cases h2 : a = b
        · subst h2
          simp [h1]
        · have h3 : b < a := by omega
          simp [h1, h2, h3]

/-- Strict comparison of two non-null cells is the order on the values. -/
theorem optCmpAfter_some_some (a b : Nat) :
    optCmpAfter (some a) (some b) = Ordering.lt ↔ a < b := by
  simp only [optCmpAfter]
  by_cases h1 : a < b
  · simp [h1]
  · by_cases h2 : a = b <;> simp [h1, h2]

/-- Transitivity of strict null-aware comparison. -/
theorem optCmpAfter_lt_trans {x y z : Option Nat}
    (h1 : optCmpAfter x y = Ordering.lt) (h2 : optCmpAfter y z = Ordering.lt) :
    optCmpAfter x z = Ordering.lt := by
  cases x with
  | none => cases y <;> simp [optCmpAfter] at h1
  | some a =>
    cases z with
    | none => simp [optCmpAfter]
    | some c =>
      cases y with
      | none => simp [optCmpAfter] at h2
      | some b =>
        rw [optCmpAfter_some_some] at h1 h2 ⊢
        omega


/-- The lexicographic sort-key comparison is reflexive up to equality. -/
theorem keyCmp_eq_iff (a b : Option Nat × Option Nat) :
    keyCmp a b = Ordering.eq ↔ a = b := by
  obtain ⟨a1, a2⟩ := a
  obtain ⟨b1, b2⟩ := b
  simp only [keyCmp]
  rcases h : optCmpAfter a1 b1 with _ | _ | _
  · simp only [Prod.mk.injEq]
    constructor
    · intro h'
      exact absurd h' (by simp)
    · rintro ⟨rfl, rfl⟩
      rw [(optCmpAfter_eq_iff a1 a1).mpr rfl] at h
      exact absurd h (by simp)
  · have h1 := (optCmpAfter_eq_iff a1 b1).mp h
    subst h1
    rw [optCmpAfter_eq_iff]
    simp
  · simp only [Prod.mk.injEq]
    constructor
    · intro h'
      exact absurd h' (by simp)
    · rintro ⟨rfl, rfl⟩
      rw [(optCmpAfter_eq_iff a1 a1).mpr rfl] at h
      exact absurd h (by simp)

/-- The lexicographic sort-key comparison is antisymmetric between `gt`
and `lt`. -/
theorem keyCmp_gt_iff (a b : Option Nat × Option Nat) :
    keyCmp a b = Ordering.gt ↔ keyCmp b a = Ordering.lt := by
  obtain ⟨a1, a2⟩ := a
  obtain ⟨b1, b2⟩ := b
  simp only [keyCmp]
  rcases h : optCmpAfter a1 b1 with _ | _ | _
  · have h2 : optCmpAfter b1 a1 = Ordering.gt := (optCmpAfter_gt_iff b1 a1).mpr h
    rw [h2]
    simp
  · have h1 := (optCmpAfter_eq_iff a1 b1).mp h
    subst h1
    rw [(optCmpAfter_eq_iff a1 a1).mpr rfl]
    exact optCmpAfter_gt_iff a2 b2
  · have h2 : optCmpAfter b1 a1 = Ordering.lt := (optCmpAfter_gt_iff a1 b1).mp h
    rw [h2]
    simp

/-- Transitivity of strict lexicographic sort-key comparison. -/
theorem keyCmp_lt_trans {a b c : Option Nat × Option Nat}
    (h1 : keyCmp a b = Ordering.lt) (h2 : keyCmp b c = Ordering.lt) :
    keyCmp a c = Ordering.lt := by
  obtain ⟨a1, a2⟩ := a
  obtain ⟨b1, b2⟩ := b
  obtain ⟨c1, c2⟩ := c
  simp only [keyCmp] at h1 h2 ⊢
  rcases g1 : optCmpAfter a1 b1 with _ | _ | _ <;> rw [g1] at h1 <;>
    rcases g2 : optCmpAfter b1 c1 with _ | _ | _ <;> rw [g2] at h2 <;>
      simp only [] at h1 h2
  · rw [optCmpAfter_lt_trans g1 g2]
  · have hbc := (optCmpAfter_eq_iff b1 c1).mp g2
    subst hbc
    rw [g1]
  · exact absurd h2 (by simp)
  · have hab := (optCmpAfter_eq_iff a1 b1).mp g1
    subst hab
    rw [g2]
  · have hab := (optCmpAfter_eq_iff a1 b1).mp g1
    have hbc := (optCmpAfter_eq_iff b1 c1).mp g2
    subst hab
    subst hbc
    rw [(optCmpAfter_eq_iff a1 a1).mpr rfl]
    exact optCmpAfter_lt_trans h1 h2
  · exact absurd h2 (by simp)
  · exact absurd h1 (by simp)
  · exact absurd h1 (by simp)
  · exact absurd h1 (by simp)

/-- Transitivity of the non-strict stable-sort relation. -/
theorem keyLe_trans (a b c : Option Nat × Option Nat)
    (hab : keyLe a b = true) (hbc : keyLe b c = true) : keyLe a c = true := by
  simp only [keyLe, decide_eq_true_eq] at hab hbc ⊢
  rcases g1 : keyCmp a b with _ | _ | _
  · rcases g2 : keyCmp b c with _ | _ | _
    · rw [keyCmp_lt_trans g1 g2]
      simp
    · have hbc2 := (keyCmp_eq_iff b c).mp g2
      subst hbc2
      rw [g1]
      simp
    · exact absurd g2 hbc
  · have hab2 := (keyCmp_eq_iff a b).mp g1
    subst hab2
    exact hbc
  · exact absurd g1 hab

/-- Totality of the non-strict stable-sort relation. -/
theorem keyLe_total (a b : Option Nat × Option Nat) :
    (keyLe a b || keyLe b a) = true := by
  simp only [keyLe, Bool.or_eq_true, decide_eq_true_eq]
  by_cases h : keyCmp a b = Ordering.gt
  · right
    rw [(keyCmp_gt_iff a b).mp h]
    simp
  · left
    exact h


/-- Strict sort-key comparison follows from the probe-order relation on
in-range gather-map entries. -/
theorem keyCmp_lt_of_probeOrdered {p q : Nat × Option Nat}
    (h : probeOrdered p q) :
    keyCmp ((some p.1 : Option Nat), p.2) ((some q.1 : Option Nat), q.2)
      = Ordering.lt := by
  rcases h with h | ⟨heq, a, b, ha, hb, hab⟩
  · simp only [keyCmp]
    rw [(optCmpAfter_some_some p.1 q.1).mpr h]
  · simp only [keyCmp, heq]
    rw [(optCmpAfter_eq_iff (some q.1) (some q.1)).mpr rfl, ha, hb]
    rw [(optCmpAfter_some_some a b).mpr hab]

/-- Rows of the polars-mandated Left-join order are pairwise related by
the probe-order relation: strictly increasing probe row, with the
other-side matches of one probe row strictly increasing. -/
theorem canonicalLeftJoin_pairwise (lkeys rkeys : List Row) :
    (canonicalLeftJoin lkeys rkeys).Pairwise probeOrdered := by
  have hfst : ∀ i : Nat, ∀ x ∈ (fun i =>
      let ms := (List.range rkeys.length).filter
        (fun j => rkeys.getD j [] = lkeys.getD i [])
      if ms.isEmpty then [((i : Nat), (none : Option Nat))]
      else ms.map (fun j => (i, some j))) i, x.1 = i := by
    intro i x hx
    simp only [] at hx
    by_cases he : ((List.range rkeys.length).filter
        (fun j => rkeys.getD j [] = lkeys.getD i [])).isEmpty
    · rw [if_pos he] at hx
      simp only [List.mem_singleton] at hx
      rw [hx]
    · rw [if_neg he] at hx
      obtain ⟨j, _, rfl⟩ := List.mem_map.mp hx
      rfl
  rw [canonicalLeftJoin, List.pairwise_flatten]
  constructor
  · intro l hl
    obtain ⟨i, _, rfl⟩ := List.mem_map.mp hl
    simp only []
    by_cases he : ((List.range rkeys.length).filter
        (fun j => rkeys.getD j [] = lkeys.getD i [])).isEmpty
    · rw [if_pos he]
      simp [probeOrdered]
    · rw [if_neg he]
      rw [List.pairwise_map]
      refine List.Pairwise.imp ?_
        ((List.pairwise_lt_range rkeys.length).filter _)
      intro a b hab
      exact Or.inr ⟨rfl, a, b, rfl, rfl, hab⟩
  · rw [List.pairwise_map]
    refine List.Pairwise.imp ?_ (List.pairwise_lt_range lkeys.length)
    intro i i' hii x hx y hy
    have hxi := hfst i x hx
    have hyi := hfst i' y hy
    exact Or.inl (by rw [hxi, hyi]; exact hii)

/-- Entries of the canonical Left-join order are in range: the probe index
is a left row, and a non-null other-side index is a right row. -/
theorem canonicalLeftJoin_bounds {lkeys rkeys : List Row}
    {p : Nat × Option Nat} (hp : p ∈ canonicalLeftJoin lkeys rkeys) :
    p.1 < lkeys.length ∧ ∀ j, p.2 = some j → j < rkeys.length := by
  simp only [canonicalLeftJoin, List.mem_flatten, List.mem_map] at hp
  obtain ⟨l, ⟨i, hi, rfl⟩, hpl⟩ := hp
  by_cases he : ((List.range rkeys.length).filter
      (fun j => rkeys.getD j [] = lkeys.getD i [])).isEmpty
  · rw [if_pos he] at hpl
    simp only [List.mem_singleton] at hpl
    subst hpl
    exact ⟨List.mem_range.mp hi, fun j h => by simp at h⟩
  · rw [if_neg he] at hpl
    obtain ⟨j, hj, rfl⟩ := List.mem_map.mp hpl
    refine ⟨List.mem_range.mp hi, fun j' h => ?_⟩
    simp only [Option.some.injEq] at h
    subst h
    exact List.mem_range.mp (List.mem_filter.mp hj).1

/-- Zipping a list with its own image under a function pairs each element
with its image. -/
theorem zip_self_map {α β : Type} (h : α → β) :
    ∀ L : List α, L.zip (L.map h) = L.map (fun a => (a, h a))
  | [] => rfl
  | a :: L => by
    rw [List.map_cons, List.zip_cons_cons, zip_self_map h L, List.map_cons]

/-- A list sorted by the non-strict key order with pairwise-distinct keys
equals any permutation of it that is strictly key-sorted. -/
theorem sorted_unique_by_key {α : Type}
    (key : α → Option Nat × Option Nat) (M D : List α)
    (hperm : M.Perm D)
    (hMsorted : M.Pairwise (fun a b => keyLe (key a) (key b) = true))
    (hDstrict : D.Pairwise (fun a b => keyCmp (key a) (key b) = Ordering.lt))
    (hDkeys : (D.map key).Nodup) :
    M = D := by
  have hMkeys : (M.map key).Nodup := ((hperm.map key).nodup_iff).mpr hDkeys
  have hMne : M.Pairwise (fun a b => key a ≠ key b) := List.pairwise_map.mp hMkeys
  have hMstrict : M.Pairwise (fun a b => keyCmp (key a) (key b) = Ordering.lt) := by
    refine (hMsorted.and hMne).imp ?_
    intro a b hab
    obtain ⟨hle, hne⟩ := hab
    simp only [keyLe, decide_eq_true_eq] at hle
    rcases hcm : keyCmp (key a) (key b) with _ | _ | _
    · rfl
    · exact absurd ((keyCmp_eq_iff _ _).mp hcm) hne
    · exact absurd hcm hle
  have hanti : IsAntisymm α (fun a b => keyCmp (key a) (key b) = Ordering.lt) := by
    constructor
    intro a b hab hba
    have hgt : keyCmp (key b) (key a) = Ordering.gt :=
      (keyCmp_gt_iff (key b) (key a)).mpr hab
    rw [hba] at hgt
    exact absurd hgt (by simp)
  exact @List.eq_of_perm_of_sorted α
    (fun a b => keyCmp (key a) (key b) = Ordering.lt) hanti M D
    hperm hMstrict hDstrict


/-- C3: `Join._reorder_maps` restores the polars Left-join row order.
Under the join primitive's contract — the unordered gather maps enumerate,
as a permutation of the canonical order, exactly the matching (probe row,
other row) pairs, with a null other-side entry for each unmatched probe
row — gathering an iota sequence through each map under its own policy and
stably sorting both maps by the gathered keys (ascending, nulls after)
yields exactly the canonical order: probe-side rows in their original
order, and the other side's matches of each probe row in their original
relative order.  The output is pairwise probe-ordered. -/
theorem C3_reorder_maps_left_join
    (lkeys rkeys : List Row) (lg : List Nat) (rg : List (Option Nat))
    (hperm : (lg.zip rg).Perm (canonicalLeftJoin lkeys rkeys)) :
    reorderMaps lkeys.length lg rkeys.length rg
      = canonicalLeftJoin lkeys rkeys ∧
    (reorderMaps lkeys.length lg rkeys.length rg).Pairwise probeOrdered := by
  have hCprobe := canonicalLeftJoin_pairwise lkeys rkeys
  have hkeyed :
      (lg.zip rg).zip ((gatherSeq lkeys.length lg).zip
        (gatherSeqNullify rkeys.length rg))
      = (lg.zip rg).map
          (fun p => (p, ((some p.1 : Option Nat), p.2))) := by
    simp only [gatherSeq, gatherSeqNullify]
    rw [List.zip_map, zip_self_map]
    refine List.map_congr_left ?_
    intro p hp
    obtain ⟨hb1, hb2⟩ := canonicalLeftJoin_bounds (hperm.mem_iff.mp hp)
    obtain ⟨p1, p2⟩ := p
    rcases p2 with _ | j
    · simp only [Prod.map, Prod.mk.injEq, true_and]
      constructor
      · exact List.get?_range hb1
      · rfl
    · simp only [Prod.map, Prod.mk.injEq, true_and]
      constructor
      · exact List.get?_range hb1
      · exact List.get?_range (hb2 j rfl)
  have heq : reorderMaps lkeys.length lg rkeys.length rg
      = canonicalLeftJoin lkeys rkeys := by
    have hunfold : reorderMaps lkeys.length lg rkeys.length rg
        = (((lg.zip rg).zip ((gatherSeq lkeys.length lg).zip
            (gatherSeqNullify rkeys.length rg))).mergeSort
              (fun a b => keyLe a.2 b.2)).map Prod.fst := rfl
    rw [hunfold, hkeyed]
    have hMD := sorted_unique_by_key (fun a => a.2)
      (((lg.zip rg).map
          (fun p => (p, ((some p.1 : Option Nat), p.2)))).mergeSort
        (fun a b => keyLe a.2 b.2))
      ((canonicalLeftJoin lkeys rkeys).map
        (fun p => (p, ((some p.1 : Option Nat), p.2))))
      ((List.mergeSort_perm _ _).trans (hperm.map _))
      (@List.sorted_mergeSort ((Nat × Option Nat) × (Option Nat × Option Nat))
        (fun a b => keyLe a.2 b.2)
        (fun a b c hab hbc => keyLe_trans _ _ _ hab hbc)
        (fun a b => keyLe_total _ _)
        ((lg.zip rg).map (fun p => (p, ((some p.1 : Option Nat), p.2)))))
      (List.Pairwise.map _ (fun a b h => keyCmp_lt_of_probeOrdered h) hCprobe)
      (by
        rw [List.map_map]
        refine List.Pairwise.map _ ?_ hCprobe
        intro p q hpq hk
        have hlt := keyCmp_lt_of_probeOrdered hpq
        have heq2 : keyCmp ((some p.1 : Option Nat), p.2)
            ((some q.1 : Option Nat), q.2) = Ordering.eq :=
          (keyCmp_eq_iff _ _).mpr hk
        rw [heq2] at hlt
        exact absurd hlt (by simp))
    rw [hMD, List.map_map]
    have hcomp : (Prod.fst ∘ fun p : Nat × Option Nat =>
        (p, ((some p.1 : Option Nat), p.2))) = id := rfl
    rw [hcomp, List.map_id]
  exact ⟨heq, by rw [heq]; exact hCprobe⟩

/-- Witness for C3 at a concrete input: the left table has keys
[1, 2, 1] and the right table [1, 3, 1]; the scrambled gather maps are
restored to probe order with ties in right-row order. -/
theorem C3_reorder_maps_left_join_witness :
    reorderMaps [[some 1], [some 2], [some 1]].length [2, 0, 1, 2, 0]
        [[some 1], [some 3], [some 1]].length
        [some 2, some 0, none, some 0, some 2]
      = canonicalLeftJoin [[some 1], [some 2], [some 1]]
          [[some 1], [some 3], [some 1]] ∧
    (reorderMaps [[some 1], [some 2], [some 1]].length [2, 0, 1, 2, 0]
        [[some 1], [some 3], [some 1]].length
        [some 2, some 0, none, some 0, some 2]).Pairwise probeOrdered :=
  C3_reorder_maps_left_join [[some 1], [some 2], [some 1]]
    [[some 1], [some 3], [some 1]] [2, 0, 1, 2, 0]
    [some 2, some 0, none, some 0, some 2] (by decide)

end Pygdf
